import Mathlib

/-!
A verification development for the capslock capability analyzer.

The Go sources are shallowly embedded: Go maps become association lists
(`List (key × value)`) queried with `List.lookup`, Go slices become `List`,
and the `bufio.Scanner` line loop becomes recursion over a list of lines.
Each definition mirrors one Go function and keeps its name.
-/

deriving instance DecidableEq for Except

namespace Capslock

/-- Modelled from the spec: the `Capability` enum of
`proto/capability.proto` (the generated `capability.pb.go` is not part of
the sources here).  Spec §3 lists the closed enumeration in this order;
the protobuf enum-value names carry the `CAPABILITY_` prefix, as the
capability-map files and documentation show (`CAPABILITY_NETWORK`, ...). -/
inductive Capability where
  | unspecified
  | safe
  | files
  | network
  | runtime
  | readSystemState
  | modifySystemState
  | operatingSystem
  | systemCalls
  | arbitraryExecution
  | cgo
  | unanalyzed
  | unsafePointer
  | reflect
  | exec
deriving DecidableEq, Repr

/-- Modelled from the spec: the protobuf-generated map
`Capability_value : map[string]int32` keyed by the enum-value names
(`CAPABILITY_FILES`, ...), here returning the capability itself. -/
def Capability_value (s : String) : Option Capability :=
  match s with
  | "CAPABILITY_UNSPECIFIED" => some .unspecified
  | "CAPABILITY_SAFE" => some .safe
  | "CAPABILITY_FILES" => some .files
  | "CAPABILITY_NETWORK" => some .network
  | "CAPABILITY_RUNTIME" => some .runtime
  | "CAPABILITY_READ_SYSTEM_STATE" => some .readSystemState
  | "CAPABILITY_MODIFY_SYSTEM_STATE" => some .modifySystemState
  | "CAPABILITY_OPERATING_SYSTEM" => some .operatingSystem
  | "CAPABILITY_SYSTEM_CALLS" => some .systemCalls
  | "CAPABILITY_ARBITRARY_EXECUTION" => some .arbitraryExecution
  | "CAPABILITY_CGO" => some .cgo
  | "CAPABILITY_UNANALYZED" => some .unanalyzed
  | "CAPABILITY_UNSAFE_POINTER" => some .unsafePointer
  | "CAPABILITY_REFLECT" => some .reflect
  | "CAPABILITY_EXEC" => some .exec
  | _ => none

/-- The short (prefixless) name of each capability, as used by the newer
string-valued capability maps and by capability filters. -/
def shortName (c : Capability) : String :=
  match c with
  | .unspecified => "UNSPECIFIED"
  | .safe => "SAFE"
  | .files => "FILES"
  | .network => "NETWORK"
  | .runtime => "RUNTIME"
  | .readSystemState => "READ_SYSTEM_STATE"
  | .modifySystemState => "MODIFY_SYSTEM_STATE"
  | .operatingSystem => "OPERATING_SYSTEM"
  | .systemCalls => "SYSTEM_CALLS"
  | .arbitraryExecution => "ARBITRARY_EXECUTION"
  | .cgo => "CGO"
  | .unanalyzed => "UNANALYZED"
  | .unsafePointer => "UNSAFE_POINTER"
  | .reflect => "REFLECT"
  | .exec => "EXEC"

/-- All capabilities, in enum order (spec §3). -/
def allCapabilities : List Capability :=
  [.unspecified, .safe, .files, .network, .runtime, .readSystemState,
   .modifySystemState, .operatingSystem, .systemCalls, .arbitraryExecution,
   .cgo, .unanalyzed, .unsafePointer, .reflect, .exec]

/-- `interesting.Classifier` (interesting/interesting.go): Go maps are
modelled as association lists, and `ignoredEdges : map[[2]string]struct{}`
as a list of pairs used as a set. -/
structure Classifier where
  functionCategory : List (String × Capability)
  unanalyzedCategory : List (String × Capability)
  packageCategory : List (String × Capability)
  ignoredEdges : List (String × String)
  cgoSuffixes : List String
deriving DecidableEq, Repr

/-- `newClassifier` (interesting/interesting.go). -/
def newClassifier : Classifier :=
  { functionCategory := [], unanalyzedCategory := [], packageCategory := [],
    ignoredEdges := [], cgoSuffixes := [] }

/-- `strings.HasSuffix`, computed on the underlying character lists (the
built-in `String` functions are not kernel-reducible). -/
def goHasSuffix (s sfx : String) : Bool :=
  sfx.data.isSuffixOf s.data

/-- `strings.HasPrefix`, computed on the underlying character lists. -/
def goHasPre (s pre : String) : Bool :=
  pre.data.isPrefixOf s.data

/-- Drop the first `n` characters of a string. -/
def goDrop (s : String) (n : Nat) : String :=
  (s.data.drop n).asString

/-- `(*Classifier).FunctionCategory` (interesting/interesting.go):
cgo suffixes first, then the function-level table, then the unanalyzed
table, then the package-level table (a missing Go map key yields the zero
value `CAPABILITY_UNSPECIFIED`). -/
def FunctionCategory (c : Classifier) (pkg fname : String) : Capability :=
  if c.cgoSuffixes.any (fun s => goHasSuffix fname s) then
    .cgo
  else
    match c.functionCategory.lookup fname with
    | some cat => cat
    | none =>
      match c.unanalyzedCategory.lookup fname with
      | some cat => cat
      | none => (c.packageCategory.lookup pkg).getD .unspecified

/-- `(*Classifier).IncludeCall` (interesting/interesting.go).  The Go
method consults the package-global `internalMap`, never the receiver `c`;
the global is made an explicit first argument here. -/
def IncludeCall (internalMap : Classifier) (_c : Classifier)
    (caller callee : String) : Bool :=
  !(internalMap.ignoredEdges.contains (caller, callee))

/-- Errors of `parseCapabilityMap`: every one is built with
`fmt.Errorf("%v:%v: ...", source, line, ...)`, so the source name and line
number are carried structurally. -/
structure MapFormatError where
  source : String
  line : Nat
  msg : String
deriving DecidableEq, Repr

/-- `strings.Fields`: the whitespace-separated words of a string,
computed on the underlying character lists. -/
def fields (s : String) : List String :=
  ((s.data.splitOnP Char.isWhitespace).map List.asString).filter (fun w => w ≠ "")

/-- `strings.Split(text, "#")`, computed on the underlying character
lists (the separator is a single character). -/
def splitHash (s : String) : List String :=
  (s.data.splitOnP (fun c => c == '#')).map List.asString

/-- The keyword dispatch (`switch args[0]`) of `parseCapabilityMap`'s
scanner loop (interesting/interesting.go, enum-valued version), given
`kw = args[0]`, `a1 = args[1]` and `rest2 = args[2:]`. -/
def parseKeyword (source : String) (line : Nat) (ret : Classifier)
    (kw a1 : String) (rest2 : List String) :
    Except MapFormatError Classifier :=
  match kw with
  | "cgo_suffix" =>
    .ok { ret with cgoSuffixes := ret.cgoSuffixes ++ [a1] }
  | "func" =>
    match rest2 with
    | [] => .error ⟨source, line, "invalid func format"⟩
    | a2 :: _ =>
      if (ret.functionCategory.lookup a1).isSome then
        .error ⟨source, line, "duplicate func key"⟩
      else
        match Capability_value a2 with
        | none => .error ⟨source, line, "unsupported capability"⟩
        | some c =>
          .ok { ret with functionCategory := ret.functionCategory ++ [(a1, c)] }
  | "ignore_edge" =>
    match rest2 with
    | [] => .error ⟨source, line, "invalid ignore_edge format"⟩
    | a2 :: _ =>
      if ret.ignoredEdges.contains (a1, a2) then
        .error ⟨source, line, "duplicate ignore_edge key"⟩
      else
        .ok { ret with ignoredEdges := ret.ignoredEdges ++ [(a1, a2)] }
  | "package" =>
    match rest2 with
    | [] => .error ⟨source, line, "invalid package format"⟩
    | a2 :: _ =>
      if (ret.packageCategory.lookup a1).isSome then
        .error ⟨source, line, "duplicate package key"⟩
      else
        match Capability_value a2 with
        | none => .error ⟨source, line, "unsupported capability"⟩
        | some c =>
          .ok { ret with packageCategory := ret.packageCategory ++ [(a1, c)] }
  | "unanalyzed" =>
    if (ret.unanalyzedCategory.lookup a1).isSome then
      .error ⟨source, line, "duplicate unanalyzed key"⟩
    else
      .ok { ret with unanalyzedCategory :=
              ret.unanalyzedCategory ++ [(a1, Capability.unanalyzed)] }
  | _ => .error ⟨source, line, "unsupported keyword"⟩

/-- The argument handling of the scanner loop: a blank line is skipped,
a one-argument line is malformed, otherwise the keyword dispatch runs. -/
def parseArgs (source : String) (line : Nat) (ret : Classifier) :
    List String → Except MapFormatError Classifier
  | [] => .ok ret
  | [_] => .error ⟨source, line, "invalid format"⟩
  | kw :: a1 :: rest2 => parseKeyword source line ret kw a1 rest2

/-- The comment stripping of the scanner loop: only the part of the line
before the first `#` is tokenized (`t[0]` of `strings.Split`). -/
def parseStripped (source : String) (line : Nat) (ret : Classifier) :
    List String → Except MapFormatError Classifier
  | [] => .ok ret
  | t0 :: _ => parseArgs source line ret (fields t0)

/-- The body of `parseCapabilityMap`'s scanner loop
(interesting/interesting.go, enum-valued version) for one input line. -/
def parseLine (source : String) (line : Nat) (ret : Classifier)
    (text : String) : Except MapFormatError Classifier :=
  parseStripped source line ret (splitHash text)

/-- The scanner loop of `parseCapabilityMap`, continued from a given
classifier and line counter. -/
def parseCapabilityMapFrom (source : String) (ret : Classifier) (line : Nat) :
    List String → Except MapFormatError Classifier
  | [] => .ok ret
  | text :: rest =>
    match parseLine source (line + 1) ret text with
    | .error e => .error e
    | .ok ret2 => parseCapabilityMapFrom source ret2 (line + 1) rest

/-- `parseCapabilityMap` (interesting/interesting.go): the input reader is
modelled as the list of lines its `bufio.Scanner` yields. -/
def parseCapabilityMap (source : String) (lines : List String) :
    Except MapFormatError Classifier :=
  parseCapabilityMapFrom source newClassifier 0 lines

/-- Insertion into a Go map (later writes win), on the association-list
model: an existing binding for the key is replaced in place, otherwise the
binding is appended. -/
def insertKV (m : List (String × Capability)) (k : String) (v : Capability) :
    List (String × Capability) :=
  if (m.lookup k).isSome then
    m.map (fun kv => if kv.1 == k then (k, v) else kv)
  else
    m ++ [(k, v)]

/-- `mergeCapabilityMap` (interesting/interesting.go): copy `s1` into
`dst`, then `s2` over it. -/
def mergeCapabilityMap (dst s1 s2 : List (String × Capability)) :
    List (String × Capability) :=
  (s1 ++ s2).foldl (fun m kv => insertKV m kv.1 kv.2) dst

/-- Insertion sort used to model the explicit `sort.Strings` /
`sort.Sort` / `sort.Slice` calls of the Go sources. -/
def insertOrd (le : α → α → Bool) (a : α) : List α → List α
  | [] => [a]
  | b :: rest => if le a b then a :: b :: rest else b :: insertOrd le a rest

/-- Sort a list with an insertion sort (the Go sorts produce an ordered
permutation; which stable/unstable algorithm produced it is immaterial). -/
def sortBy (le : α → α → Bool) : List α → List α
  | [] => []
  | a :: rest => insertOrd le a (sortBy le rest)

/-- `LoadClassifier` (interesting/interesting.go): parse the user map,
and unless `excludeBuiltin` is set, merge it over the built-in map
(`internalMap`, the parsed embedded `interesting.cm`, passed explicitly
here).  `cgoSuffixes` are deduplicated and sorted. -/
def LoadClassifier (internalMap : Classifier) (source : String)
    (lines : List String) (excludeBuiltin : Bool) :
    Except MapFormatError Classifier :=
  match parseCapabilityMap source lines with
  | .error e => .error e
  | .ok userClassifier =>
    if excludeBuiltin then .ok userClassifier
    else
      .ok { functionCategory :=
              mergeCapabilityMap [] internalMap.functionCategory
                userClassifier.functionCategory,
            unanalyzedCategory :=
              mergeCapabilityMap [] internalMap.unanalyzedCategory
                userClassifier.unanalyzedCategory,
            packageCategory :=
              mergeCapabilityMap [] internalMap.packageCategory
                userClassifier.packageCategory,
            ignoredEdges :=
              internalMap.ignoredEdges ++ userClassifier.ignoredEdges,
            cgoSuffixes :=
              sortBy (fun a b => a ≤ b)
                ((internalMap.cgoSuffixes ++ userClassifier.cgoSuffixes).dedup) }

namespace SV

/-- `interesting.Classifier` of the string-valued revision of
interesting.go: the category tables hold capability strings
(`"FILES"`, `"MODIFY_SYSTEM_STATE/ENV"`, ...), with `""` meaning
unspecified. -/
structure Classifier where
  functionCategory : List (String × String)
  unanalyzedCategory : List (String × String)
  packageCategory : List (String × String)
  ignoredEdges : List (String × String)
  cgoSuffixes : List String
deriving DecidableEq, Repr

/-- `newClassifier` of the string-valued revision. -/
def newClassifier : Classifier :=
  { functionCategory := [], unanalyzedCategory := [], packageCategory := [],
    ignoredEdges := [], cgoSuffixes := [] }

/-- The `parseCapability` closure of the string-valued
`parseCapabilityMap`: a token with the legacy `CAPABILITY_` form is
validated against the protobuf enum names and converted to the newer
string form (`CAPABILITY_UNSPECIFIED` becomes `""`); any other token is
returned unchanged. -/
def parseCapability (c : String) : Option String :=
  if goHasPre c "CAPABILITY_" then
    let after := goDrop c ("CAPABILITY_".length)
    if (Capability_value c).isSome then
      if after = "UNSPECIFIED" then some "" else some after
    else none
  else some c

/-- The scanner-loop body of the string-valued `parseCapabilityMap`. -/
def parseLine (source : String) (line : Nat) (ret : Classifier)
    (text : String) : Except MapFormatError Classifier :=
  match splitHash text with
  | [] => .ok ret
  | t0 :: _ =>
    match fields t0 with
    | [] => .ok ret
    | [_] => .error ⟨source, line, "invalid format"⟩
    | kw :: a1 :: rest2 =>
      match kw with
      | "cgo_suffix" =>
        .ok { ret with cgoSuffixes := ret.cgoSuffixes ++ [a1] }
      | "func" =>
        match rest2 with
        | [] => .error ⟨source, line, "invalid func format"⟩
        | a2 :: _ =>
          if (ret.functionCategory.lookup a1).isSome then
            .error ⟨source, line, "duplicate func key"⟩
          else
            match parseCapability a2 with
            | none => .error ⟨source, line, "unsupported capability"⟩
            | some c =>
              .ok { ret with functionCategory := ret.functionCategory ++ [(a1, c)] }
      | "ignore_edge" =>
        match rest2 with
        | [] => .error ⟨source, line, "invalid ignore_edge format"⟩
        | a2 :: _ =>
          if ret.ignoredEdges.contains (a1, a2) then
            .error ⟨source, line, "duplicate ignore_edge key"⟩
          else
            .ok { ret with ignoredEdges := ret.ignoredEdges ++ [(a1, a2)] }
      | "package" =>
        match rest2 with
        | [] => .error ⟨source, line, "invalid package format"⟩
        | a2 :: _ =>
          if (ret.packageCategory.lookup a1).isSome then
            .error ⟨source, line, "duplicate package key"⟩
          else
            match parseCapability a2 with
            | none => .error ⟨source, line, "unsupported capability"⟩
            | some c =>
              .ok { ret with packageCategory := ret.packageCategory ++ [(a1, c)] }
      | "unanalyzed" =>
        if (ret.unanalyzedCategory.lookup a1).isSome then
          .error ⟨source, line, "duplicate unanalyzed key"⟩
        else
          .ok { ret with unanalyzedCategory :=
                  ret.unanalyzedCategory ++ [(a1, "UNANALYZED")] }
      | _ => .error ⟨source, line, "unsupported keyword"⟩

/-- The scanner loop of the string-valued `parseCapabilityMap`. -/
def parseCapabilityMapFrom (source : String) (ret : Classifier) (line : Nat) :
    List String → Except MapFormatError Classifier
  | [] => .ok ret
  | text :: rest =>
    match parseLine source (line + 1) ret text with
    | .error e => .error e
    | .ok ret2 => parseCapabilityMapFrom source ret2 (line + 1) rest

/-- `parseCapabilityMap` of the string-valued revision. -/
def parseCapabilityMap (source : String) (lines : List String) :
    Except MapFormatError Classifier :=
  parseCapabilityMapFrom source newClassifier 0 lines

end SV

/-- The `classify` operation as spec §4.1 words it: cgo suffix match
first; else the function-level entry (even `Unspecified`); else
`Unanalyzed` when the name is an unanalyzed key; else the package-level
entry if present; else `Unspecified`. -/
def classifySpec (c : Classifier) (pkg fname : String) : Capability :=
  if c.cgoSuffixes.any (fun s => goHasSuffix fname s) then
    .cgo
  else
    match c.functionCategory.lookup fname with
    | some cat => cat
    | none =>
      if (c.unanalyzedCategory.lookup fname).isSome then
        .unanalyzed
      else
        match c.packageCategory.lookup pkg with
        | some cat => cat
        | none => .unspecified

/-- The five keywords of the capability-map format (spec §4.1). -/
def knownKeyword (kw : String) : Bool :=
  match kw with
  | "cgo_suffix" => true
  | "func" => true
  | "ignore_edge" => true
  | "package" => true
  | "unanalyzed" => true
  | _ => false

/-- Whether a keyword requires three arguments (keyword plus two). -/
def needsThree (kw : String) : Bool :=
  match kw with
  | "func" => true
  | "ignore_edge" => true
  | "package" => true
  | _ => false

/-- Whether the line's key repeats a key already defined by the same
keyword in the classifier built so far.  `cgo_suffix` lines keep no key
(the code appends them unconditionally). -/
def dupKeyB (ret : Classifier) (kw a1 a2 : String) : Bool :=
  match kw with
  | "func" => (ret.functionCategory.lookup a1).isSome
  | "ignore_edge" => ret.ignoredEdges.contains (a1, a2)
  | "package" => (ret.packageCategory.lookup a1).isSome
  | "unanalyzed" => (ret.unanalyzedCategory.lookup a1).isSome
  | _ => false

/-- Whether the line's capability token is unknown (only `func` and
`package` lines carry a capability token). -/
def badCapB (kw a2 : String) : Bool :=
  match kw with
  | "func" => (Capability_value a2).isNone
  | "package" => (Capability_value a2).isNone
  | _ => false

/-- The error conditions of claim C8 on one argument list, as amended:
fewer than two arguments, an unknown keyword, a missing required third
argument, a repeated `func`/`package`/`unanalyzed`/`ignore_edge` key, or
an unknown capability. -/
def badArgs (ret : Classifier) : List String → Bool
  | [] => false
  | [_] => true
  | kw :: a1 :: rest2 =>
    if !(knownKeyword kw) then true
    else if needsThree kw && rest2.isEmpty then true
    else dupKeyB ret kw a1 (rest2.headD "") || badCapB kw (rest2.headD "")

/-- The error conditions of claim C8 on the comment-stripped line. -/
def badStripped (ret : Classifier) : List String → Bool
  | [] => false
  | t0 :: _ => badArgs ret (fields t0)

/-- The error conditions of claim C8 (as amended) for a whole line:
blank and comment-only lines never fail. -/
def BadLineB (ret : Classifier) (text : String) : Bool :=
  badStripped ret (splitHash text)

/-- `analyzer.CapabilitySet` (graph.go, string-typed revision): a set of
capabilities, possibly negated. -/
structure CapabilitySet where
  capabilities : List Capability
  negated : Bool
deriving DecidableEq, Repr

/-- `(*CapabilitySet).Has`: a nil set (here `none`) holds every
capability; otherwise membership xor negation. -/
def CapabilitySet.Has (cs : Option CapabilitySet) (c : Capability) : Bool :=
  match cs with
  | none => true
  | some s => (s.capabilities.contains c) != s.negated

/-- The capability-token lookup of `NewCapabilitySet` /
`parseCapabilitiesList`: try the token itself in `Capability_value`, then
with the `CAPABILITY_` prefix prepended. -/
def capToken (s : String) : Option Capability :=
  match Capability_value s with
  | some c => some c
  | none => Capability_value ("CAPABILITY_" ++ s)

/-- `strings.Split(cs, ",")`, computed on the underlying character
lists. -/
def goSplitComma (cs : String) : List String :=
  (cs.data.splitOnP (fun c => c == ',')).map List.asString

/-- The entry loop of `NewCapabilitySet` / `parseCapabilitiesList`:
`i` is the loop index, `negated` the negation flag so far, `out` the
accumulated set. -/
def capListLoop : List String → Nat → Bool → List Capability →
    Except String (List Capability × Bool)
  | [], _, negated, out => .ok (out, negated)
  | s :: rest, i, negated, out =>
    if s.length == 0 then .error "empty capability in list"
    else
      let neg := goHasPre s "-"
      let s2 := if neg then goDrop s 1 else s
      if decide (0 < i) && (neg != negated) then
        .error "mix of negated and unnegated capabilities specified"
      else
        match capToken s2 with
        | none => .error "unknown capability"
        | some c => capListLoop rest (i + 1) neg (out ++ [c])

/-- `NewCapabilitySet` (graph.go, string-typed revision; the enum-typed
`parseCapabilitiesList` has the same logic): the empty string denotes the
set of all capabilities (`none`). -/
def NewCapabilitySet (cs : String) : Except String (Option CapabilitySet) :=
  if cs.length == 0 then .ok none
  else
    match capListLoop (goSplitComma cs) 0 false [] with
    | .error e => .error e
    | .ok (out, negated) => .ok (some ⟨out, negated⟩)

/-- Whether a filter entry is written negated (leading `-`). -/
def entryNeg (e : String) : Bool := goHasPre e "-"

/-- A filter entry with its negation sign stripped. -/
def entryCore (e : String) : String :=
  if entryNeg e then goDrop e 1 else e

/-- A bad filter entry: empty, or naming a capability valid in neither
the short nor the `CAPABILITY_`-prefixed form. -/
def entryBad (e : String) : Bool :=
  (e.length == 0) || (capToken (entryCore e)).isNone

/-- The Go expression syntax (`go/ast` expression nodes) as far as the
rewriter's side-effect check inspects it.  Subexpressions the check never
looks into (e.g. a selector's field name) are kept only where consulted;
any node kind outside this list is `otherExpr` (the check's default). -/
inductive AstExpr where
  | ident
  | basicLit
  | funcLit
  | callExpr (fn : AstExpr) (args : List AstExpr)
  | compositeLit (elts : List AstExpr)
  | parenExpr (x : AstExpr)
  | selectorExpr (x : AstExpr) (sel : String)
  | indexExpr (x idx : AstExpr)
  | indexListExpr (x : AstExpr) (indices : List AstExpr)
  | sliceExpr (x : AstExpr) (low high maxe : Option AstExpr)
  | typeAssertExpr (x : AstExpr)
  | starExpr (x : AstExpr)
  | unaryExpr (x : AstExpr)
  | binaryExpr (x y : AstExpr)
  | keyValueExpr (k v : AstExpr)
  | otherExpr

mutual

/-- `mayHaveSideEffects` (analyzer/scan.go): the rewriter's conservative
structural side-effect check.  A `nil` subexpression (reachable through a
slice expression's bounds) is the `none` case of `optMayHaveSideEffects`;
node kinds not listed fall to the `otherExpr` default of `true`. -/
def mayHaveSideEffects : AstExpr → Bool
  | .ident => false
  | .basicLit => false
  | .funcLit => false
  | .callExpr _ _ => true
  | .compositeLit elts => anyMayHaveSideEffects elts
  | .parenExpr x => mayHaveSideEffects x
  | .selectorExpr x _ => mayHaveSideEffects x
  | .indexExpr x idx => mayHaveSideEffects x || mayHaveSideEffects idx
  | .indexListExpr x indices =>
      anyMayHaveSideEffects indices || mayHaveSideEffects x
  | .sliceExpr x lo hi mx =>
      mayHaveSideEffects x || optMayHaveSideEffects lo ||
      optMayHaveSideEffects hi || optMayHaveSideEffects mx
  | .typeAssertExpr x => mayHaveSideEffects x
  | .starExpr x => mayHaveSideEffects x
  | .unaryExpr x => mayHaveSideEffects x
  | .binaryExpr x y => mayHaveSideEffects x || mayHaveSideEffects y
  | .keyValueExpr k v => mayHaveSideEffects k || mayHaveSideEffects v
  | .otherExpr => true

/-- The element loop of the `CompositeLit` and `IndexListExpr` cases. -/
def anyMayHaveSideEffects : List AstExpr → Bool
  | [] => false
  | e :: rest => mayHaveSideEffects e || anyMayHaveSideEffects rest

/-- The `case nil` of `mayHaveSideEffects`. -/
def optMayHaveSideEffects : Option AstExpr → Bool
  | none => false
  | some e => mayHaveSideEffects e

end

/-- The kinds of `go/types` basic types the syntactic scanner
distinguishes. -/
inductive BasicKind where
  | uintptrKind
  | unsafePointerKind
  | otherKind
deriving DecidableEq, Repr

/-- The fragment of `go/types` types the scanner and the method matcher
inspect: basic types, pointers, and named types with their defining
package, name and underlying type. -/
inductive GoType where
  | basic (k : BasicKind)
  | pointer (elem : GoType)
  | named (pkgPath : Option String) (tname : String) (under : GoType)
  | otherType
deriving DecidableEq, Repr

/-- `types.Type.Underlying()`: resolve named types to their underlying
type. -/
def underlying : GoType → GoType
  | .named _ _ u => underlying u
  | .basic k => .basic k
  | .pointer e => .pointer e
  | .otherType => .otherType

/-- `analyzer.methodMatcher` (scan.go): matches a method of some type. -/
structure MethodMatcher where
  pkg : String
  typeName : String
  methodName : String
  functionTypedParameterIndex : Nat
deriving DecidableEq, Repr

/-- `(*methodMatcher).match` (analyzer/scan.go): the front-end's
`typeInfo.TypeOf` is passed as a function.  A receiver expression that
may have side effects is rejected before anything else is inspected. -/
def MethodMatcher.matchCall (m : MethodMatcher)
    (typeOf : AstExpr → Option GoType) (call : AstExpr) : Option AstExpr :=
  match call with
  | .callExpr fn args =>
    match fn with
    | .selectorExpr x selName =>
      if mayHaveSideEffects x then none
      else
        match typeOf x with
        | none => none
        | some t0 =>
          let t1 := match t0 with
            | .pointer e => e
            | t => t
          match t1 with
          | .named pkgPath tname _ =>
            if (match pkgPath with
                | some p => decide (p ≠ m.pkg)
                | none => false) then none
            else if tname ≠ m.typeName then none
            else if selName ≠ m.methodName then none
            else if args.length ≤ m.functionTypedParameterIndex then none
            else args.get? m.functionTypedParameterIndex
          | _ => none
    | _ => none
  | _ => none

/-- The typed syntax tree as far as `visitor.Visit` (analyzer/scan.go)
inspects it: function definitions (declarations and literals, both
handled alike and identified here by an id), call expressions carrying
the front-end's type information — `funTv = some t` models
`TypesInfo.Types[node.Fun]` with `IsType() = true` and type `t`, and each
argument carries `TypesInfo.Types[arg].Type` — and all other nodes, of
which only the children are walked. -/
inductive GoAst where
  | funcDef (id : Nat) (body : List GoAst)
  | callExpr (funTv : Option GoType) (args : List (Option GoType × GoAst))
  | otherNode (children : List GoAst)

/-- The conversion test of `visitor.Visit` (analyzer/scan.go): the callee
is a type whose underlying type is not `uintptr`, and there is exactly
one argument, with type information, whose underlying type is
`unsafe.Pointer`. -/
def isRawPtrConversion (funTv : Option GoType)
    (args : List (Option GoType × GoAst)) : Bool :=
  match funTv with
  | none => false
  | some t =>
    match underlying t with
    | .basic .uintptrKind => false
    | _ =>
      match args with
      | [(some at1, _)] =>
        match underlying at1 with
        | .basic .unsafePointerKind => true
        | _ => false
      | _ => false

mutual

/-- The walk `ast.Walk(vis, file)` performs with `visitor.Visit`
(analyzer/scan.go): `cur` is `v.currentFunction` (none outside any
function definition).  The result is the set of flagged function ids
(`unsafeFunctionNodes`) together with the
`seenUnsafePointerUseInInitialization` flag. -/
def visitNode (cur : Option Nat) : GoAst → List Nat × Bool
  | .funcDef id body => visitList (some id) body
  | .callExpr funTv args =>
    let rest := visitArgs cur args
    if isRawPtrConversion funTv args then
      match cur with
      | some i => (i :: rest.1, rest.2)
      | none => (rest.1, true)
    else rest
  | .otherNode children => visitList cur children

/-- Walk a list of child nodes, merging their results. -/
def visitList (cur : Option Nat) : List GoAst → List Nat × Bool
  | [] => ([], false)
  | n :: rest =>
    let a := visitNode cur n
    let b := visitList cur rest
    (a.1 ++ b.1, a.2 || b.2)

/-- Walk the argument expressions of a call, merging their results. -/
def visitArgs (cur : Option Nat) : List (Option GoType × GoAst) → List Nat × Bool
  | [] => ([], false)
  | (_, n) :: rest =>
    let a := visitNode cur n
    let b := visitArgs cur rest
    (a.1 ++ b.1, a.2 || b.2)

end

/-- `findUnsafePointerConversions` (analyzer/analyzer.go) on one
package: walk every file with no current function; when a conversion was
seen in package-scope initialization, the package's `init` function
(here `initId`) is flagged as well. -/
def findUnsafePointerConversions (files : List GoAst) (initId : Nat) :
    List Nat :=
  let r := visitList none files
  if r.2 then r.1 ++ [initId] else r.1

/-- An occurrence of the node `e` inside `root`, walked from current
function `cur0`, at which the innermost enclosing function is `cur`:
`funcDef` children are visited with the current function set to it, call
arguments and other children inherit it. -/
inductive OccAt : Option Nat → GoAst → Option Nat → GoAst → Prop where
  | here (cur : Option Nat) (n : GoAst) : OccAt cur n cur n
  | inFunc {cur0 c : Option Nat} {e child : GoAst} {id : Nat}
      {body : List GoAst} :
      child ∈ body → OccAt (some id) child c e →
      OccAt cur0 (.funcDef id body) c e
  | inCall {cur0 c : Option Nat} {e child : GoAst} {funTv : Option GoType}
      {args : List (Option GoType × GoAst)} {ty : Option GoType} :
      (ty, child) ∈ args → OccAt cur0 child c e →
      OccAt cur0 (.callExpr funTv args) c e
  | inOther {cur0 c : Option Nat} {e child : GoAst} {children : List GoAst} :
      child ∈ children → OccAt cur0 child c e →
      OccAt cur0 (.otherNode children) c e

/-- A call-graph node (`*callgraph.Node` with its `ssa.Function`), with
the attributes the analyzer consults: an identity (the Go node pointer),
`Package().Pkg.Path()` when the function's package is known, the
fully-qualified name `Func.String()`, the origin's package path and name
for instantiations of generic functions, whether the signature has a
receiver (used only for sorting), whether the function has a body
(`Blocks != nil`), and whether it is compiler-synthesized. -/
structure FuncNode where
  id : Nat
  pkg : Option String
  name : String
  origin : Option (String × String)
  hasRecv : Bool
  hasBlocks : Bool
  synthetic : Bool
deriving DecidableEq, Repr

/-- A call edge with its optional call-site position (filename, offset);
`none` models an invalid `token.Position`. -/
structure Edge where
  caller : FuncNode
  callee : FuncNode
  site : Option (String × Nat)
deriving DecidableEq, Repr

/-- The call graph: nodes and directed edges. -/
structure Graph where
  nodes : List FuncNode
  edges : List Edge
deriving DecidableEq, Repr

/-- `packagePath` (analyzer/scan.go): the origin's package for generic
instantiations, else the function's own package, else `""`. -/
def packagePath (f : FuncNode) : String :=
  match f.origin with
  | some (op, _) => op
  | none => f.pkg.getD ""

/-- `funcCompare` (analyzer/scan.go): order by package path, then plain
functions before methods, then by name. -/
def funcCmp (a b : FuncNode) : Ordering :=
  match compare (packagePath a) (packagePath b) with
  | .lt => .lt
  | .gt => .gt
  | .eq =>
    match a.hasRecv, b.hasRecv with
    | false, true => .lt
    | true, false => .gt
    | _, _ => compare a.name b.name

/-- `byFunction.Less` as a sorting predicate. -/
def byFunctionLe (a b : FuncNode) : Bool :=
  match funcCmp a b with
  | .gt => false
  | _ => true

/-- `positionLess` (analyzer/scan.go): invalid positions last, then by
filename, then by offset. -/
def positionLess (p1 p2 : Option (String × Nat)) : Bool :=
  match p2 with
  | none => p1.isSome
  | some (f2, o2) =>
    match p1 with
    | none => false
    | some (f1, o1) =>
      if f1 ≠ f2 then decide (f1 < f2) else decide (o1 < o2)

/-- `byCaller.Less` as a sorting predicate: by calling function, then by
call-site position. -/
def byCallerLe (e1 e2 : Edge) : Bool :=
  match funcCmp e1.caller e2.caller with
  | .lt => true
  | .gt => false
  | .eq => positionLess e1.site e2.site

/-- The categorization step of `getNodeCapabilities`
(analyzer/analyzer.go): a node with a package is classified by its
package path and name; a node without one is classified by its generic
origin's package path and name; a node with neither is skipped
(`none`). -/
def nodeCategory (cl : Classifier) (f : FuncNode) : Option Capability :=
  match f.pkg with
  | some p => some (FunctionCategory cl p f.name)
  | none =>
    match f.origin with
    | some (op, onm) => some (FunctionCategory cl op onm)
    | none => none

/-- The `safe` set of `getNodeCapabilities`: nodes classified
`CAPABILITY_SAFE`. -/
def safeNodes (cl : Classifier) (g : Graph) : List FuncNode :=
  g.nodes.filter (fun f => nodeCategory cl f == some Capability.safe)

/-- The `nodesByCapability` map of `getNodeCapabilities`: nodes whose
category is neither `SAFE` nor `UNSPECIFIED`, keyed by category. -/
def nodesByCapability (cl : Classifier) (g : Graph) (c : Capability) :
    List FuncNode :=
  if c == Capability.unspecified || c == Capability.safe then []
  else g.nodes.filter (fun f => nodeCategory cl f == some c)

/-- `getExtraNodesByCapability` (analyzer/analyzer.go).  The two
SSA-level scans — functions that store `reflect.Value`s to non-local
locations, and functions performing unsafe-pointer conversions
(`findUnsafePointerConversions`) — are inputs here, delivered as node
lists and restricted to nodes of the graph, as the code's
`graph.Nodes[f]` lookups do; the arbitrary-execution entries for
bodyless non-synthetic (assembly) functions are computed from the node
attributes. -/
def getExtraNodesByCapability (g : Graph)
    (reflectNodes rawConvNodes : List FuncNode) (c : Capability) :
    List FuncNode :=
  match c with
  | .reflect => reflectNodes.filter (fun f => g.nodes.contains f)
  | .unsafePointer => rawConvNodes.filter (fun f => g.nodes.contains f)
  | .arbitraryExecution => g.nodes.filter (fun f => !f.hasBlocks && !f.synthetic)
  | _ => []

/-- `mergeCapabilities` (analyzer/analyzer.go): gather the explicitly
categorized nodes, then add each extra finding only for nodes without an
explicit category.  Returns the merged map and the explicit set. -/
def mergeCapabilities (byCap extra : Capability → List FuncNode) :
    (Capability → List FuncNode) × List FuncNode :=
  let explicitNodes := (allCapabilities.map byCap).flatten
  (fun c => byCap c ++ (extra c).filter (fun n => !(explicitNodes.contains n)),
   explicitNodes)

/-- A capability finding: the capability, the reported function, and the
witness path (function ids from the queried function to the capability
leaf). -/
structure Finding where
  cap : Capability
  fnId : Nat
  path : List Nat
deriving DecidableEq, Repr

/-- The state of one backward BFS (`forEachPath`): the `visited` map
from node id to its `bfsState` edge, the queue, and the findings emitted
so far. -/
structure BfsSt where
  visited : List (Nat × Option Edge)
  queue : List FuncNode
  found : List Finding
deriving Repr

/-- Path reconstruction from the `bfsState` map (`bfsState.next`):
follow each node's recorded edge to its callee.  `fuel` bounds the walk
(the caller passes the size of the visited map). -/
def pathFrom (visited : List (Nat × Option Edge)) : Nat → Nat → List Nat
  | 0, v => [v]
  | fuel + 1, v =>
    v :: (match visited.lookup v with
      | some (some e) => pathFrom visited fuel e.callee.id
      | _ => [])

/-- Whether a node's package is one of the queried packages (a node
without a package is never queried). -/
def isQueried (queried : List String) (f : FuncNode) : Bool :=
  match f.pkg with
  | some p => queried.contains p
  | none => false

/-- `v.In`: the edges into `v`. -/
def incomingEdges (g : Graph) (v : FuncNode) : List Edge :=
  g.edges.filter (fun e => e.callee.id == v.id)

/-- The body of `forEachPath`'s inner edge loop (analyzer/analyzer.go):
skip safe callers, already-visited callers, and callers with an explicit
categorization; otherwise record the discovering edge, enqueue the
caller, and emit a finding when the caller's package is queried.  (The
`w.Func == nil` skip of the Go code cannot arise here: every modelled
node carries its function.) -/
def expandEdge (cap : Capability) (safeIds explicitIds : List Nat)
    (queried : List String) (st : BfsSt) (e : Edge) : BfsSt :=
  if safeIds.contains e.caller.id then st
  else if (st.visited.lookup e.caller.id).isSome then st
  else if explicitIds.contains e.caller.id then st
  else if isQueried queried e.caller then
    { visited := st.visited ++ [(e.caller.id, some e)],
      queue := st.queue ++ [e.caller],
      found := st.found ++ [⟨cap, e.caller.id,
        pathFrom (st.visited ++ [(e.caller.id, some e)])
          (st.visited ++ [(e.caller.id, some e)]).length e.caller.id⟩] }
  else
    { visited := st.visited ++ [(e.caller.id, some e)],
      queue := st.queue ++ [e.caller], found := st.found }

/-- The BFS loop of `forEachPath`: dequeue, collect the incoming edges
allowed by `IncludeCall`, sort them by caller and call site, and expand
each.  `fuel` bounds the loop. -/
def bfsRun (internal cl : Classifier) (g : Graph) (cap : Capability)
    (safeIds explicitIds : List Nat) (queried : List String) :
    Nat → BfsSt → BfsSt
  | 0, st => st
  | fuel + 1, st =>
    match st.queue with
    | [] => st
    | v :: qrest =>
      let inc := (incomingEdges g v).filter
        (fun e => IncludeCall internal cl e.caller.name v.name)
      let inc2 := sortBy byCallerLe inc
      let st2 := inc2.foldl (expandEdge cap safeIds explicitIds queried)
        { st with queue := qrest }
      bfsRun internal cl g cap safeIds explicitIds queried fuel st2

/-- The initial queue of one capability's BFS: the capability's nodes
that are not safe (deduplicated, as the Go node set is), sorted with
`byFunction`. -/
def capRoots (merged : Capability → List FuncNode) (safeIds : List Nat)
    (cap : Capability) : List FuncNode :=
  sortBy byFunctionLe
    (((merged cap).filter (fun v => !(safeIds.contains v.id))).dedup)

/-- One capability's search in `forEachPath`: initialize the queue with
the capability's non-safe nodes, emit findings for queried roots, then
run the BFS. -/
def forEachPathCap (internal cl : Classifier) (g : Graph)
    (merged : Capability → List FuncNode) (safeIds explicitIds : List Nat)
    (queried : List String) (cap : Capability) : BfsSt :=
  let roots := capRoots merged safeIds cap
  let visited0 : List (Nat × Option Edge) :=
    roots.map (fun v => (v.id, none))
  let found0 := (roots.filter (fun v => isQueried queried v)).map
    (fun v => (⟨cap, v.id, pathFrom visited0 visited0.length v.id⟩ : Finding))
  bfsRun internal cl g cap safeIds explicitIds queried
    (g.nodes.length + g.edges.length)
    { visited := visited0, queue := roots, found := found0 }

/-- The per-capability search state of the whole pipeline
(`getPackageNodesWithCapability`, `mergeCapabilities`, then one
capability's BFS of `forEachPath`). -/
def searchCap (internal cl : Classifier) (g : Graph)
    (reflectNodes rawConvNodes : List FuncNode) (disableBuiltin : Bool)
    (queried : List String) (cap : Capability) : BfsSt :=
  let m := mergeCapabilities (nodesByCapability cl g)
    (if disableBuiltin then (fun _ => [])
     else getExtraNodesByCapability g reflectNodes rawConvNodes)
  forEachPathCap internal cl g m.1
    ((safeNodes cl g).map (fun v => v.id))
    (m.2.map (fun v => v.id)) queried cap

/-- All findings of `forEachPath`: capabilities of the merged map in
enum order, each searched in turn. -/
def forEachPathFindings (internal cl : Classifier) (g : Graph)
    (reflectNodes rawConvNodes : List FuncNode) (disableBuiltin : Bool)
    (queried : List String) : List Finding :=
  let m := mergeCapabilities (nodesByCapability cl g)
    (if disableBuiltin then (fun _ => [])
     else getExtraNodesByCapability g reflectNodes rawConvNodes)
  ((allCapabilities.filter (fun c => !(m.1 c).isEmpty)).map
    (fun c => (searchCap internal cl g reflectNodes rawConvNodes
        disableBuiltin queried c).found)).flatten

/-- Whether a node is the function with package path `p` and name `f`,
either directly or as the generic origin of a package-less
instantiation — exactly the two ways `getNodeCapabilities` consults the
classifier about `(p, f)`. -/
def NodeIsFunc (p f : String) (nd : FuncNode) : Prop :=
  (nd.pkg = some p ∧ nd.name = f) ∨ (nd.pkg = none ∧ nd.origin = some (p, f))

/-- No node of the graph with this id is classified `Safe`. -/
def SafeFreeId (cl : Classifier) (g : Graph) (i : Nat) : Prop :=
  ∀ nd ∈ g.nodes, nd.id = i → nodeCategory cl nd ≠ some Capability.safe

/-- The invariant of one capability's backward BFS: (1) every visited id
is safe-free; (2) every recorded edge's callee is itself visited;
(3) every finding's function and path lie in the visited map; (4) every
queued node is visited; (5) a visited entry without an edge is a root;
(6) a visited entry with an edge is not explicitly categorized; (7) every
finding carries this search's capability. -/
def BfsInv (cl : Classifier) (g : Graph) (explicitIds rootIds : List Nat)
    (cap : Capability) (st : BfsSt) : Prop :=
  (∀ kv ∈ st.visited, SafeFreeId cl g kv.1) ∧
  (∀ kv ∈ st.visited, ∀ e : Edge, kv.2 = some e →
      (st.visited.lookup e.callee.id).isSome) ∧
  (∀ fd ∈ st.found, (st.visited.lookup fd.fnId).isSome ∧
      ∀ i ∈ fd.path, (st.visited.lookup i).isSome) ∧
  (∀ v ∈ st.queue, (st.visited.lookup v.id).isSome) ∧
  (∀ kv ∈ st.visited, kv.2 = none → kv.1 ∈ rootIds) ∧
  (∀ kv ∈ st.visited, ∀ e : Edge, kv.2 = some e →
      explicitIds.contains kv.1 = false) ∧
  (∀ fd ∈ st.found, fd.cap = cap)

/-- A small classifier for concrete runs of the graph pipeline:
`q.g` reads files, `q.s` is safe. -/
def wcl : Classifier :=
  { functionCategory := [("q.g", Capability.files), ("q.s", Capability.safe)],
    unanalyzedCategory := [], packageCategory := [], ignoredEdges := [],
    cgoSuffixes := [] }

/-- A file-reading leaf node. -/
def wn1 : FuncNode := ⟨1, some "q", "q.g", none, false, true, false⟩

/-- A safe node. -/
def wn2 : FuncNode := ⟨2, some "q", "q.s", none, false, true, false⟩

/-- A caller in the queried package `m`. -/
def wn3 : FuncNode := ⟨3, some "m", "m.h", none, false, true, false⟩

/-- A small call graph: `m.h` calls both `q.g` and `q.s`. -/
def wg : Graph :=
  ⟨[wn1, wn2, wn3],
   [⟨wn3, wn1, some ("m.go", 10)⟩, ⟨wn3, wn2, some ("m.go", 20)⟩]⟩

/-- A node categorized `files` by `c5byCap` and found by the scanner in
`c5extra`. -/
def c5n : FuncNode := ⟨7, some "p", "p.f", none, false, true, false⟩

/-- An explicit capability map holding `c5n` under `files`. -/
def c5byCap : Capability → List FuncNode :=
  fun c => if c == Capability.files then [c5n] else []

/-- A scanner output holding `c5n` under `reflect`. -/
def c5extra : Capability → List FuncNode :=
  fun c => if c == Capability.reflect then [c5n] else []

/-- A classifier that explicitly categorizes `p.f` as
arbitrary-execution. -/
def clC5 : Classifier :=
  { functionCategory := [("p.f", Capability.arbitraryExecution)],
    unanalyzedCategory := [], packageCategory := [], ignoredEdges := [],
    cgoSuffixes := [] }

/-- A bodyless non-synthetic (assembly) function, so the
arbitrary-execution scanner also reports it. -/
def ndC5 : FuncNode := ⟨0, some "p", "p.f", none, false, false, false⟩

/-- A one-node graph around `ndC5`. -/
def gC5 : Graph := ⟨[ndC5], []⟩

/-- A classifier that explicitly categorizes `p.s` as Safe. -/
def clC5s : Classifier :=
  { functionCategory := [("p.s", Capability.safe)],
    unanalyzedCategory := [], packageCategory := [], ignoredEdges := [],
    cgoSuffixes := [] }

/-- A bodyless non-synthetic function named `p.s`, so the
arbitrary-execution scanner reports it although it is categorized
Safe. -/
def ndC5s : FuncNode := ⟨0, some "p", "p.s", none, false, false, false⟩

/-- A one-node graph around `ndC5s`. -/
def gC5s : Graph := ⟨[ndC5s], []⟩

/-- A successful association-list lookup yields a member of the list. -/
theorem lookup_mem {α β} [BEq α] [LawfulBEq α] {k : α} {v : β} :
    ∀ {l : List (α × β)}, l.lookup k = some v → (k, v) ∈ l := by
  intro l
  induction l with
  | nil => intro h; simp [List.lookup] at h
  | cons hd tl ih =>
    intro h
    match hd with
    | (k', v') =>
      rw [List.lookup] at h
      by_cases hk : (k == k') = true
      · rw [hk] at h
        cases h
        have hkk : k = k' := eq_of_beq hk
        subst hkk
        exact List.mem_cons_self _ _
      · rw [Bool.not_eq_true] at hk
        rw [hk] at h
        exact List.mem_cons_of_mem _ (ih h)

/-- A key that is bound in the list has a successful lookup. -/
theorem lookup_isSome_of_mem {α β} [BEq α] [LawfulBEq α] {k : α} {x : β} :
    ∀ {l : List (α × β)}, (k, x) ∈ l → (l.lookup k).isSome := by
  intro l
  induction l with
  | nil => intro h; cases h
  | cons hd tl ih =>
    intro h
    match hd with
    | (k', v') =>
      rw [List.lookup]
      by_cases hk : (k == k') = true
      · rw [hk]; rfl
      · rw [Bool.not_eq_true] at hk
        rw [hk]
        rcases List.mem_cons.mp h with heq | h2
        · cases heq
          simp at hk
        · exact ih h2

/-- Lookup success is preserved by appending entries on the right. -/
theorem lookup_append_isSome {α β} [BEq α] {k : α} {l l2 : List (α × β)}
    (h : (l.lookup k).isSome) : ((l ++ l2).lookup k).isSome := by
  induction l with
  | nil => simp [List.lookup] at h
  | cons hd tl ih =>
    match hd with
    | (k', v') =>
      rw [List.cons_append, List.lookup]
      rw [List.lookup] at h
      by_cases hk : (k == k') = true
      · rw [hk]; rfl
      · rw [Bool.not_eq_true] at hk
        rw [hk]
        rw [hk] at h
        exact ih h

/-- Appending a binding for a key makes its lookup succeed. -/
theorem lookup_append_self {α β} [BEq α] [LawfulBEq α] (k : α) (x : β) :
    ∀ l : List (α × β), ((l ++ [(k, x)]).lookup k).isSome := by
  intro l
  induction l with
  | nil => simp [List.lookup]
  | cons hd tl ih =>
    match hd with
    | (k', v') =>
      rw [List.cons_append, List.lookup]
      by_cases hk : (k == k') = true
      · rw [hk]; rfl
      · rw [Bool.not_eq_true] at hk
        rw [hk]
        exact ih

/-- A successful lookup exhibits a bound entry. -/
theorem isSome_lookup_mem {α β} [BEq α] [LawfulBEq α] {k : α}
    {l : List (α × β)} (h : (l.lookup k).isSome) : ∃ x, (k, x) ∈ l := by
  cases hl : l.lookup k with
  | none => rw [hl] at h; cases h
  | some v => exact ⟨v, lookup_mem hl⟩

/-- Membership in an insertion-sorted list. -/
theorem mem_insertOrd {α} (le : α → α → Bool) (x a : α) :
    ∀ l : List α, (a ∈ insertOrd le x l ↔ a = x ∨ a ∈ l) := by
  intro l
  induction l with
  | nil => simp [insertOrd]
  | cons b rest ih =>
    by_cases hle : le x b = true
    · simp [insertOrd, hle]
    · rw [Bool.not_eq_true] at hle
      simp only [insertOrd, hle, Bool.false_eq_true, if_false, List.mem_cons, ih]
      tauto

/-- Sorting preserves membership. -/
theorem mem_sortBy {α} (le : α → α → Bool) (a : α) :
    ∀ l : List α, (a ∈ sortBy le l ↔ a ∈ l) := by
  intro l
  induction l with
  | nil => simp [sortBy]
  | cons b rest ih =>
    simp only [sortBy, mem_insertOrd, List.mem_cons, ih]

/-- Every id on a reconstructed path is a key of the visited map,
provided the map is closed under recorded edges' callees. -/
theorem pathFrom_lookup (visited : List (Nat × Option Edge))
    (hclosed : ∀ kv ∈ visited, ∀ e : Edge, kv.2 = some e →
        (visited.lookup e.callee.id).isSome) :
    ∀ (fuel v : Nat), (visited.lookup v).isSome →
    ∀ i ∈ pathFrom visited fuel v, (visited.lookup i).isSome := by
  intro fuel
  induction fuel with
  | zero =>
    intro v hv i hi
    simp only [pathFrom, List.mem_singleton] at hi
    subst hi
    exact hv
  | succ fuel ih =>
    intro v hv i hi
    cases hl : visited.lookup v with
    | none =>
      simp only [pathFrom, hl, List.mem_cons] at hi
      rcases hi with rfl | hi
      · exact hv
      · cases hi
    | some x =>
      cases x with
      | none =>
        simp only [pathFrom, hl, List.mem_cons] at hi
        rcases hi with rfl | hi
        · exact hv
        · cases hi
      | some e =>
        simp only [pathFrom, hl, List.mem_cons] at hi
        rcases hi with rfl | hi
        · exact hv
        · exact ih e.callee.id (hclosed (v, some e) (lookup_mem hl) e rfl) i hi

/-- A safe, visited, or explicitly categorized caller is skipped. -/
theorem expandEdge_skip (cap : Capability) (safeIds explicitIds : List Nat)
    (queried : List String) (st : BfsSt) (e : Edge)
    (h : safeIds.contains e.caller.id = true ∨
         (st.visited.lookup e.caller.id).isSome = true ∨
         explicitIds.contains e.caller.id = true) :
    expandEdge cap safeIds explicitIds queried st e = st := by
  unfold expandEdge
  split
  · rfl
  next hA =>
    split
    · rfl
    next hB =>
      split
      · rfl
      next hC =>
        rcases h with h | h | h
        · exact absurd h hA
        · exact absurd h hB
        · exact absurd h hC

/-- An unvisited, non-safe, non-explicit caller is recorded, enqueued,
and — when its package is queried — reported. -/
theorem expandEdge_add (cap : Capability) (safeIds explicitIds : List Nat)
    (queried : List String) (st : BfsSt) (e : Edge)
    (hs : safeIds.contains e.caller.id = false)
    (hv : (st.visited.lookup e.caller.id).isSome = false)
    (hx : explicitIds.contains e.caller.id = false) :
    (expandEdge cap safeIds explicitIds queried st e).visited
      = st.visited ++ [(e.caller.id, some e)] ∧
    (expandEdge cap safeIds explicitIds queried st e).queue
      = st.queue ++ [e.caller] ∧
    ((expandEdge cap safeIds explicitIds queried st e).found = st.found ∨
     (expandEdge cap safeIds explicitIds queried st e).found
       = st.found ++ [⟨cap, e.caller.id,
           pathFrom (st.visited ++ [(e.caller.id, some e)])
             (st.visited ++ [(e.caller.id, some e)]).length e.caller.id⟩]) := by
  unfold expandEdge
  split
  next hA => rw [hs] at hA; cases hA
  next _ =>
    split
    next hB => rw [hv] at hB; cases hB
    next _ =>
      split
      next hC => rw [hx] at hC; cases hC
      next _ =>
        split
        · exact ⟨rfl, rfl, Or.inr rfl⟩
        · exact ⟨rfl, rfl, Or.inl rfl⟩

/-- An id that is not among the safe ids denotes no safe node. -/
theorem safeFree_of_not_contains (cl : Classifier) (g : Graph)
    (safeIds : List Nat)
    (hsafeIds : safeIds = (safeNodes cl g).map (fun v => v.id))
    (i : Nat) (h : safeIds.contains i = false) : SafeFreeId cl g i := by
  intro nd hnd hid hcat
  have hmem : nd ∈ safeNodes cl g := by
    unfold safeNodes
    rw [List.mem_filter]
    refine ⟨hnd, ?_⟩
    simp [hcat]
  have hin : i ∈ safeIds := by
    rw [hsafeIds]
    exact List.mem_map.mpr ⟨nd, hmem, hid⟩
  have : safeIds.contains i = true := List.elem_iff.mpr hin
  rw [h] at this
  cases this

/-- Expanding one edge preserves the BFS invariant, and visited lookups
are monotone. -/
theorem expandEdge_pres (cl : Classifier) (g : Graph) (cap : Capability)
    (safeIds explicitIds rootIds : List Nat) (queried : List String)
    (hsafeIds : safeIds = (safeNodes cl g).map (fun v => v.id))
    (st : BfsSt) (e : Edge)
    (hcallee : (st.visited.lookup e.callee.id).isSome)
    (hInv : BfsInv cl g explicitIds rootIds cap st) :
    BfsInv cl g explicitIds rootIds cap
      (expandEdge cap safeIds explicitIds queried st e) ∧
    (∀ k, (st.visited.lookup k).isSome →
      ((expandEdge cap safeIds explicitIds queried st e).visited.lookup k).isSome) := by
  by_cases hs : safeIds.contains e.caller.id = true
  · rw [expandEdge_skip _ _ _ _ _ _ (Or.inl hs)]
    exact ⟨hInv, fun k hk => hk⟩
  rw [Bool.not_eq_true] at hs
  by_cases hv : (st.visited.lookup e.caller.id).isSome = true
  · rw [expandEdge_skip _ _ _ _ _ _ (Or.inr (Or.inl hv))]
    exact ⟨hInv, fun k hk => hk⟩
  rw [Bool.not_eq_true] at hv
  by_cases hx : explicitIds.contains e.caller.id = true
  · rw [expandEdge_skip _ _ _ _ _ _ (Or.inr (Or.inr hx))]
    exact ⟨hInv, fun k hk => hk⟩
  rw [Bool.not_eq_true] at hx
  obtain ⟨hvis, hqu, hfd⟩ :=
    expandEdge_add cap safeIds explicitIds queried st e hs hv hx
  obtain ⟨h1, h2, h3, h4, h5, h6, h7⟩ := hInv
  have hmono : ∀ k, (st.visited.lookup k).isSome →
      ((expandEdge cap safeIds explicitIds queried st e).visited.lookup k).isSome := by
    intro k hk
    rw [hvis]
    exact lookup_append_isSome hk
  have hnewmem : ∀ kv ∈ (expandEdge cap safeIds explicitIds queried st e).visited,
      kv ∈ st.visited ∨ kv = (e.caller.id, some e) := by
    intro kv hkv
    rw [hvis] at hkv
    rcases List.mem_append.mp hkv with h | h
    · exact Or.inl h
    · exact Or.inr (List.mem_singleton.mp h)
  have hcallerLookup :
      ((expandEdge cap safeIds explicitIds queried st e).visited.lookup
        e.caller.id).isSome := by
    rw [hvis]
    exact lookup_append_self _ _ _
  have hclosed2 : ∀ kv ∈ (expandEdge cap safeIds explicitIds queried st e).visited,
      ∀ e2 : Edge, kv.2 = some e2 →
      ((expandEdge cap safeIds explicitIds queried st e).visited.lookup
        e2.callee.id).isSome := by
    intro kv hkv e2 hkv2
    rcases hnewmem kv hkv with hold | hnew
    · exact hmono _ (h2 kv hold e2 hkv2)
    · subst hnew
      simp only [] at hkv2
      cases hkv2
      exact hmono _ hcallee
  refine ⟨⟨?_, hclosed2, ?_, ?_, ?_, ?_, ?_⟩, hmono⟩
  · intro kv hkv
    rcases hnewmem kv hkv with hold | hnew
    · exact h1 kv hold
    · subst hnew
      exact safeFree_of_not_contains cl g safeIds hsafeIds _ hs
  · have holdfd : ∀ fd ∈ st.found,
        ((expandEdge cap safeIds explicitIds queried st e).visited.lookup
          fd.fnId).isSome ∧
        ∀ i ∈ fd.path,
          ((expandEdge cap safeIds explicitIds queried st e).visited.lookup
            i).isSome := by
      intro fd hfdm
      exact ⟨hmono _ (h3 fd hfdm).1, fun i hi => hmono _ ((h3 fd hfdm).2 i hi)⟩
    rcases hfd with hf | hf
    · rw [hf]
      exact holdfd
    · rw [hf]
      intro fd hfdm
      rcases List.mem_append.mp hfdm with hold | hnew
      · exact holdfd fd hold
      · have hfdeq := List.mem_singleton.mp hnew
        subst hfdeq
        refine ⟨hcallerLookup, ?_⟩
        intro i hi
        rw [hvis]
        rw [hvis] at hcallerLookup
        refine pathFrom_lookup _ ?_ _ _ hcallerLookup i hi
        intro kv hkv e2 hkv2
        rw [← hvis] at hkv
        have := hclosed2 kv hkv e2 hkv2
        rw [hvis] at this
        exact this
  · rw [hqu]
    intro w hw
    rcases List.mem_append.mp hw with hold | hnew
    · exact hmono _ (h4 w hold)
    · have := List.mem_singleton.mp hnew
      subst this
      exact hcallerLookup
  · intro kv hkv hnone
    rcases hnewmem kv hkv with hold | hnew
    · exact h5 kv hold hnone
    · subst hnew
      simp only [] at hnone
      cases hnone
  · intro kv hkv e2 hkv2
    rcases hnewmem kv hkv with hold | hnew
    · exact h6 kv hold e2 hkv2
    · subst hnew
      exact hx
  · rcases hfd with hf | hf
    · rw [hf]
      exact h7
    · rw [hf]
      intro fd hfdm
      rcases List.mem_append.mp hfdm with hold | hnew
      · exact h7 fd hold
      · have := List.mem_singleton.mp hnew
        subst this
        rfl

/-- Folding edge expansion over a list whose callees are all visited
preserves the BFS invariant. -/
theorem foldl_expand_pres (cl : Classifier) (g : Graph) (cap : Capability)
    (safeIds explicitIds rootIds : List Nat) (queried : List String)
    (hsafeIds : safeIds = (safeNodes cl g).map (fun v => v.id)) :
    ∀ (edges : List Edge) (st : BfsSt),
    BfsInv cl g explicitIds rootIds cap st →
    (∀ e ∈ edges, (st.visited.lookup e.callee.id).isSome) →
    BfsInv cl g explicitIds rootIds cap
      (edges.foldl (expandEdge cap safeIds explicitIds queried) st) ∧
    (∀ k, (st.visited.lookup k).isSome →
      ((edges.foldl (expandEdge cap safeIds explicitIds queried)
        st).visited.lookup k).isSome) := by
  intro edges
  induction edges with
  | nil => intro st h _; exact ⟨h, fun k hk => hk⟩
  | cons e rest ih =>
    intro st hInv hcal
    have hstep := expandEdge_pres cl g cap safeIds explicitIds rootIds queried
      hsafeIds st e (hcal e (List.mem_cons_self _ _)) hInv
    have hrest : ∀ e2 ∈ rest,
        ((expandEdge cap safeIds explicitIds queried st e).visited.lookup
          e2.callee.id).isSome :=
      fun e2 he2 => hstep.2 _ (hcal e2 (List.mem_cons_of_mem _ he2))
    have hres := ih (expandEdge cap safeIds explicitIds queried st e)
      hstep.1 hrest
    rw [List.foldl_cons]
    exact ⟨hres.1, fun k hk => hres.2 k (hstep.2 k hk)⟩

/-- The BFS loop preserves the invariant for any amount of fuel. -/
theorem bfsRun_pres (internal cl : Classifier) (g : Graph) (cap : Capability)
    (safeIds explicitIds rootIds : List Nat) (queried : List String)
    (hsafeIds : safeIds = (safeNodes cl g).map (fun v => v.id)) :
    ∀ (fuel : Nat) (st : BfsSt),
    BfsInv cl g explicitIds rootIds cap st →
    BfsInv cl g explicitIds rootIds cap
      (bfsRun internal cl g cap safeIds explicitIds queried fuel st) := by
  intro fuel
  induction fuel with
  | zero => intro st h; exact h
  | succ fuel ih =>
    intro st hInv
    cases hq : st.queue with
    | nil =>
      simpa [bfsRun, hq] using hInv
    | cons v qrest =>
      have hv : (st.visited.lookup v.id).isSome :=
        hInv.2.2.2.1 v (by rw [hq]; exact List.mem_cons_self _ _)
      have hInv1 : BfsInv cl g explicitIds rootIds cap
          { st with queue := qrest } := by
        obtain ⟨h1, h2, h3, h4, h5, h6, h7⟩ := hInv
        exact ⟨h1, h2, h3,
          fun w hw => h4 w (by rw [hq]; exact List.mem_cons_of_mem _ hw),
          h5, h6, h7⟩
      have hedges : ∀ e ∈ sortBy byCallerLe ((incomingEdges g v).filter
          (fun e => IncludeCall internal cl e.caller.name v.name)),
          (({ st with queue := qrest } : BfsSt).visited.lookup
            e.callee.id).isSome := by
        intro e he
        have he2 := (mem_sortBy _ _ _).mp he
        have he3 := (List.mem_filter.mp he2).1
        have he4 := (List.mem_filter.mp he3).2
        have hceq : e.callee.id = v.id := by simpa using he4
        rw [hceq]
        exact hv
      have hfold := foldl_expand_pres cl g cap safeIds explicitIds rootIds
        queried hsafeIds _ { st with queue := qrest } hInv1 hedges
      have hrun : bfsRun internal cl g cap safeIds explicitIds queried
          (fuel + 1) st
          = bfsRun internal cl g cap safeIds explicitIds queried fuel
            ((sortBy byCallerLe ((incomingEdges g v).filter
              (fun e => IncludeCall internal cl e.caller.name v.name))).foldl
              (expandEdge cap safeIds explicitIds queried)
              { st with queue := qrest }) := by
        simp only [bfsRun, hq]
      rw [hrun]
      exact ih _ hfold.1

/-- A root of one capability's BFS is a non-safe node of the merged
capability map. -/
theorem capRoots_subset (merged : Capability → List FuncNode)
    (safeIds : List Nat) (cap : Capability) (v : FuncNode)
    (h : v ∈ capRoots merged safeIds cap) :
    v ∈ merged cap ∧ safeIds.contains v.id = false := by
  unfold capRoots at h
  have h1 := (mem_sortBy _ _ _).mp h
  have h2 := List.mem_dedup.mp h1
  have h3 := List.mem_filter.mp h2
  refine ⟨h3.1, ?_⟩
  simpa using h3.2

/-- Mapping injectively-used keys: under a `Nodup` image, equal images
come from equal elements. -/
theorem nodup_map_inj {α β} (fn : α → β) :
    ∀ {l : List α}, (l.map fn).Nodup →
    ∀ a ∈ l, ∀ b ∈ l, fn a = fn b → a = b := by
  intro l
  induction l with
  | nil => intro _ a ha; cases ha
  | cons x rest ih =>
    intro hnd a ha b hb heq
    rw [List.map_cons, List.nodup_cons] at hnd
    rcases List.mem_cons.mp ha with rfl | ha2
    · rcases List.mem_cons.mp hb with rfl | hb2
      · rfl
      · exact absurd (heq ▸ List.mem_map.mpr ⟨b, hb2, rfl⟩) hnd.1
    · rcases List.mem_cons.mp hb with rfl | hb2
      · exact absurd (heq ▸ List.mem_map.mpr ⟨a, ha2, rfl⟩) hnd.1
      · exact ih hnd.2 a ha2 b hb2 heq

/-- Every capability is in the enumeration list. -/
theorem mem_allCapabilities (c : Capability) : c ∈ allCapabilities := by
  cases c <;> simp [allCapabilities]

/-- The extra (scanner) nodes all belong to the graph. -/
theorem getExtra_subset (g : Graph) (rN uN : List FuncNode)
    (c : Capability) (n : FuncNode)
    (h : n ∈ getExtraNodesByCapability g rN uN c) : n ∈ g.nodes := by
  cases c <;> simp only [getExtraNodesByCapability] at h
  all_goals first
    | cases h
    | (have h2 := List.mem_filter.mp h
       first
         | exact h2.1
         | exact List.elem_iff.mp h2.2)

/-- Members of the merged capability map all belong to the graph when
the inputs are the pipeline's. -/
theorem merged_subset_nodes (cl : Classifier) (g : Graph)
    (rN uN : List FuncNode) (db : Bool) (c : Capability) (n : FuncNode)
    (h : n ∈ (mergeCapabilities (nodesByCapability cl g)
      (if db then (fun _ => []) else getExtraNodesByCapability g rN uN)).1 c) :
    n ∈ g.nodes := by
  unfold mergeCapabilities at h
  rcases List.mem_append.mp h with h2 | h2
  · unfold nodesByCapability at h2
    split at h2
    · cases h2
    · exact (List.mem_filter.mp h2).1
  · have h3 := (List.mem_filter.mp h2).1
    by_cases hdb : db = true
    · rw [hdb] at h3; cases h3
    · rw [Bool.not_eq_true] at hdb
      rw [hdb] at h3
      simp only [Bool.false_eq_true, if_false] at h3
      exact getExtra_subset g rN uN c n h3

/-- The start state of one capability's BFS satisfies the invariant. -/
theorem forEachPathCap_inv (internal cl : Classifier) (g : Graph)
    (merged : Capability → List FuncNode) (safeIds explicitIds : List Nat)
    (queried : List String) (cap : Capability)
    (hsafeIds : safeIds = (safeNodes cl g).map (fun v => v.id)) :
    BfsInv cl g explicitIds ((capRoots merged safeIds cap).map (fun v => v.id))
      cap (forEachPathCap internal cl g merged safeIds explicitIds queried cap) := by
  unfold forEachPathCap
  apply bfsRun_pres internal cl g cap safeIds explicitIds _ queried hsafeIds
  have hshape : ∀ kv ∈ (capRoots merged safeIds cap).map
      (fun v => ((v.id : Nat), (none : Option Edge))),
      ∃ v ∈ capRoots merged safeIds cap, kv = (v.id, none) := by
    intro kv hkv
    rcases List.mem_map.mp hkv with ⟨v, hv, rfl⟩
    exact ⟨v, hv, rfl⟩
  have hclosed : ∀ kv ∈ (capRoots merged safeIds cap).map
      (fun v => ((v.id : Nat), (none : Option Edge))),
      ∀ e : Edge, kv.2 = some e →
      (((capRoots merged safeIds cap).map
        (fun v => ((v.id : Nat), (none : Option Edge)))).lookup
          e.callee.id).isSome := by
    intro kv hkv e he
    rcases hshape kv hkv with ⟨v, _, rfl⟩
    cases he
  refine ⟨?_, hclosed, ?_, ?_, ?_, ?_, ?_⟩
  · intro kv hkv
    rcases hshape kv hkv with ⟨v, hv, rfl⟩
    exact safeFree_of_not_contains cl g safeIds hsafeIds _
      (capRoots_subset merged safeIds cap v hv).2
  · intro fd hfd
    rcases List.mem_map.mp hfd with ⟨v, hv, rfl⟩
    have hvroot : v ∈ capRoots merged safeIds cap := (List.mem_filter.mp hv).1
    have hlv : (((capRoots merged safeIds cap).map
        (fun v => ((v.id : Nat), (none : Option Edge)))).lookup v.id).isSome :=
      lookup_isSome_of_mem (List.mem_map.mpr ⟨v, hvroot, rfl⟩)
    exact ⟨hlv, fun i hi => pathFrom_lookup _ hclosed _ _ hlv i hi⟩
  · intro v hv
    exact lookup_isSome_of_mem (List.mem_map.mpr ⟨v, hv, rfl⟩)
  · intro kv hkv _
    rcases hshape kv hkv with ⟨v, hv, rfl⟩
    exact List.mem_map.mpr ⟨v, hv, rfl⟩
  · intro kv hkv e he
    rcases hshape kv hkv with ⟨v, _, rfl⟩
    cases he
  · intro fd hfd
    rcases List.mem_map.mp hfd with ⟨v, _, rfl⟩
    rfl

/-- One parser step fails exactly on the bad lines of claim C8
(as amended). -/
theorem parseLine_err_iff (src : String) (ln : Nat) (ret : Classifier)
    (text : String) :
    ((parseLine src ln ret text).isOk = false) ↔ BadLineB ret text = true := by
  unfold parseLine BadLineB
  cases hsp : splitHash text with
  | nil => simp [parseStripped, badStripped, Except.isOk, Except.toBool]
  | cons t0 ts =>
    simp only [parseStripped, badStripped]
    cases hft : fields t0 with
    | nil => simp [parseArgs, badArgs, Except.isOk, Except.toBool]
    | cons kw args1 =>
      cases args1 with
      | nil => simp [parseArgs, badArgs, Except.isOk, Except.toBool]
      | cons a1 rest2 =>
        simp only [parseArgs, badArgs]
        unfold parseKeyword
        split
        all_goals try (split)
        all_goals try (split)
        all_goals try (split)
        all_goals simp_all [Except.isOk, Except.toBool, knownKeyword,
          needsThree, dupKeyB, badCapB]

/-- Every parser error carries the source name and the line number it was
built with. -/
theorem parseLine_err_context (src : String) (ln : Nat) (ret : Classifier)
    (text : String) (e : MapFormatError)
    (h : parseLine src ln ret text = .error e) :
    e.source = src ∧ e.line = ln := by
  unfold parseLine at h
  cases hsp : splitHash text with
  | nil => rw [hsp] at h; simp [parseStripped] at h
  | cons t0 ts =>
    rw [hsp] at h
    simp only [parseStripped] at h
    cases hft : fields t0 with
    | nil => rw [hft] at h; simp [parseArgs] at h
    | cons kw args1 =>
      rw [hft] at h
      cases args1 with
      | nil =>
        simp only [parseArgs] at h
        cases h
        exact ⟨rfl, rfl⟩
      | cons a1 rest2 =>
        simp only [parseArgs] at h
        unfold parseKeyword at h
        split at h
        all_goals try (split at h)
        all_goals try (split at h)
        all_goals try (split at h)
        all_goals first
          | (cases h; exact ⟨rfl, rfl⟩)
          | cases h

/-- Blank lines and comment-only lines are ignored: the classifier passes
through unchanged and no error arises. -/
theorem parseLine_blank (src : String) (ln : Nat) (ret : Classifier)
    (text : String) (h : fields ((splitHash text).headD "") = []) :
    parseLine src ln ret text = .ok ret := by
  unfold parseLine
  cases hsp : splitHash text with
  | nil => rfl
  | cons t0 ts =>
    rw [hsp] at h
    simp only [List.headD] at h
    simp [parseStripped, h, parseArgs]

/-- The whole parser fails exactly when some line is bad with respect to
the classifier accumulated from the lines before it. -/
theorem parseFrom_err_iff (src : String) :
    ∀ (lines : List String) (ret : Classifier) (n : Nat),
    ((parseCapabilityMapFrom src ret n lines).isOk = false) ↔
      ∃ i, i < lines.length ∧ ∃ ret2,
        parseCapabilityMapFrom src ret n (lines.take i) = .ok ret2 ∧
        BadLineB ret2 (lines.getD i "") = true := by
  intro lines
  induction lines with
  | nil =>
    intro ret n
    simp [parseCapabilityMapFrom, Except.isOk, Except.toBool]
  | cons text rest ih =>
    intro ret n
    cases hpl : parseLine src (n + 1) ret text with
    | error e =>
      constructor
      · intro _
        refine ⟨0, by simp, ret, by simp [parseCapabilityMapFrom], ?_⟩
        have hb := (parseLine_err_iff src (n + 1) ret text).mp (by rw [hpl]; rfl)
        simpa using hb
      · intro _
        simp [parseCapabilityMapFrom, hpl, Except.isOk, Except.toBool]
    | ok ret2 =>
      have hgood : BadLineB ret text = false := by
        by_cases hb : BadLineB ret text = true
        · have := (parseLine_err_iff src (n + 1) ret text).mpr hb
          rw [hpl] at this
          simp [Except.isOk, Except.toBool] at this
        · simpa using hb
      have hstep : parseCapabilityMapFrom src ret n (text :: rest)
          = parseCapabilityMapFrom src ret2 (n + 1) rest := by
        simp [parseCapabilityMapFrom, hpl]
      rw [hstep, ih ret2 (n + 1)]
      constructor
      · rintro ⟨i, hi, r2, hr2, hbad⟩
        refine ⟨i + 1, by simpa using Nat.succ_lt_succ hi, r2, ?_, by simpa using hbad⟩
        have htake : (text :: rest).take (i + 1) = text :: rest.take i := rfl
        rw [htake]
        simpa [parseCapabilityMapFrom, hpl] using hr2
      · rintro ⟨i, hi, r2, hr2, hbad⟩
        cases i with
        | zero =>
          simp [parseCapabilityMapFrom] at hr2
          subst hr2
          simp only [List.getD, List.get?, Option.getD] at hbad
          rw [hgood] at hbad
          cases hbad
        | succ i =>
          refine ⟨i, Nat.lt_of_succ_lt_succ hi, r2, ?_, by simpa using hbad⟩
          have htake : (text :: rest).take (i + 1) = text :: rest.take i := rfl
          rw [htake] at hr2
          simpa [parseCapabilityMapFrom, hpl] using hr2

/-- Characterization of the capability-filter entry loop from index 1
on: it fails iff some remaining entry is bad or disagrees with the
negation flag, and on success it appends each entry's capability and
keeps the flag. -/
theorem capListLoop_spec :
    ∀ (entries : List String) (i : Nat) (neg0 : Bool)
      (out : List Capability), 0 < i →
    (((capListLoop entries i neg0 out).isOk = false) ↔
      ∃ e ∈ entries, entryBad e = true ∨ entryNeg e ≠ neg0) ∧
    (∀ r, capListLoop entries i neg0 out = .ok r →
      r = (out ++ entries.filterMap (fun e => capToken (entryCore e)), neg0)) := by
  intro entries
  induction entries with
  | nil =>
    intro i neg0 out hi
    refine ⟨by simp [capListLoop, Except.isOk, Except.toBool], ?_⟩
    intro r hr
    simp [capListLoop] at hr
    simp [← hr]
  | cons s rest ih =>
    intro i neg0 out hi
    by_cases hlen : (s.length == 0) = true
    · refine ⟨?_, ?_⟩
      · simp only [capListLoop, hlen, if_true]
        simp only [Except.isOk, Except.toBool]
        constructor
        · intro _
          exact ⟨s, List.mem_cons_self _ _, Or.inl (by simp [entryBad, hlen])⟩
        · intro _; trivial
      · intro r hr
        simp only [capListLoop, hlen, if_true] at hr
        cases hr
    · by_cases hmix : ((goHasPre s "-") != neg0) = true
      · have hcond : (decide (0 < i) && ((goHasPre s "-") != neg0)) = true := by
          simp [hi, hmix]
        refine ⟨?_, ?_⟩
        · simp only [capListLoop, hlen, if_false, Bool.false_eq_true, hcond, if_true]
          simp only [Except.isOk, Except.toBool]
          constructor
          · intro _
            exact ⟨s, List.mem_cons_self _ _, Or.inr (by simpa [entryNeg, bne_iff_ne] using hmix)⟩
          · intro _; trivial
        · intro r hr
          simp only [capListLoop, hlen, if_false, Bool.false_eq_true, hcond, if_true] at hr
          cases hr
      · have hneg : goHasPre s "-" = neg0 := by
          simpa [bne_iff_ne] using hmix
        have hcond : (decide (0 < i) && ((goHasPre s "-") != neg0)) = false := by
          simp [hneg]
        have hcore : entryCore s = (if goHasPre s "-" then goDrop s 1 else s) := by
          simp [entryCore, entryNeg]
        cases hct : capToken (entryCore s) with
        | none =>
          refine ⟨?_, ?_⟩
          · simp only [capListLoop, hlen, if_false, Bool.false_eq_true, hcond,
              ← hcore, hct]
            simp only [Except.isOk, Except.toBool]
            constructor
            · intro _
              exact ⟨s, List.mem_cons_self _ _,
                Or.inl (by simp [entryBad, hlen, hct])⟩
            · intro _; trivial
          · intro r hr
            simp only [capListLoop, hlen, if_false, Bool.false_eq_true, hcond,
              ← hcore, hct] at hr
            cases hr
        | some c =>
          have hrec := ih (i + 1) neg0 (out ++ [c]) (Nat.succ_pos i)
          have hstep : capListLoop (s :: rest) i neg0 out
              = capListLoop rest (i + 1) (goHasPre s "-") (out ++ [c]) := by
            simp only [capListLoop, hlen, if_false, Bool.false_eq_true, hcond,
              ← hcore, hct]
          rw [hneg] at hstep
          refine ⟨?_, ?_⟩
          · rw [hstep, hrec.1]
            constructor
            · rintro ⟨e, he, hbad⟩
              exact ⟨e, List.mem_cons_of_mem _ he, hbad⟩
            · rintro ⟨e, he, hbad⟩
              rcases List.mem_cons.mp he with rfl | he2
              · rcases hbad with hb | hb
                · simp only [entryBad, hlen, Bool.false_or] at hb
                  simp [hct] at hb
                · simp only [entryNeg] at hb
                  exact absurd hneg hb
              · exact ⟨e, he2, hbad⟩
          · intro r hr
            rw [hstep] at hr
            have := hrec.2 r hr
            rw [this]
            simp [List.filterMap_cons, hct]

/-- Characterization of the entry loop from its start (index 0, where
the negation-mix check is skipped and the first entry fixes the flag). -/
theorem capListLoop_start (e0 : String) (rest : List String) :
    (((capListLoop (e0 :: rest) 0 false []).isOk = false) ↔
      ((∃ e ∈ e0 :: rest, entryBad e = true) ∨
       (∃ e ∈ rest, entryNeg e ≠ entryNeg e0))) ∧
    (∀ r, capListLoop (e0 :: rest) 0 false [] = .ok r →
      r = ((e0 :: rest).filterMap (fun e => capToken (entryCore e)),
           entryNeg e0)) := by
  by_cases hlen : (e0.length == 0) = true
  · refine ⟨?_, ?_⟩
    · simp only [capListLoop, hlen, if_true]
      simp only [Except.isOk, Except.toBool]
      constructor
      · intro _
        exact Or.inl ⟨e0, List.mem_cons_self _ _, by simp [entryBad, hlen]⟩
      · intro _; trivial
    · intro r hr
      simp only [capListLoop, hlen, if_true] at hr
      cases hr
  · have hcond : (decide (0 < 0) && ((goHasPre e0 "-") != false)) = false := by
      simp
    have hcore : entryCore e0 = (if goHasPre e0 "-" then goDrop e0 1 else e0) := by
      simp [entryCore, entryNeg]
    cases hct : capToken (entryCore e0) with
    | none =>
      refine ⟨?_, ?_⟩
      · simp only [capListLoop, hlen, if_false, Bool.false_eq_true, hcond,
          ← hcore, hct]
        simp only [Except.isOk, Except.toBool]
        constructor
        · intro _
          exact Or.inl ⟨e0, List.mem_cons_self _ _,
            by simp [entryBad, hlen, hct]⟩
        · intro _; trivial
      · intro r hr
        simp only [capListLoop, hlen, if_false, Bool.false_eq_true, hcond,
          ← hcore, hct] at hr
        cases hr
    | some c =>
      have hrec := capListLoop_spec rest 1 (goHasPre e0 "-") [c] Nat.one_pos
      have hstep : capListLoop (e0 :: rest) 0 false []
          = capListLoop rest 1 (goHasPre e0 "-") [c] := by
        simp only [capListLoop, hlen, if_false, Bool.false_eq_true, hcond,
          ← hcore, hct]
        rfl
      refine ⟨?_, ?_⟩
      · rw [hstep, hrec.1]
        constructor
        · rintro ⟨e, he, hbad⟩
          rcases hbad with hb | hb
          · exact Or.inl ⟨e, List.mem_cons_of_mem _ he, hb⟩
          · exact Or.inr ⟨e, he, by simpa [entryNeg] using hb⟩
        · rintro (⟨e, he, hb⟩ | ⟨e, he, hb⟩)
          · rcases List.mem_cons.mp he with rfl | he2
            · simp only [entryBad, hlen, Bool.false_or] at hb
              simp [hct] at hb
            · exact ⟨e, he2, Or.inl hb⟩
          · exact ⟨e, he, Or.inr (by simpa [entryNeg] using hb)⟩
      · intro r hr
        rw [hstep] at hr
        have := hrec.2 r hr
        rw [this]
        simp [List.filterMap_cons, hct, entryNeg]

/-- Two entries with different negation signs exist iff some entry
disagrees with the first entry's sign. -/
theorem mixed_pair_iff (e0 : String) (rest : List String) :
    (∃ e ∈ rest, entryNeg e ≠ entryNeg e0) ↔
      (∃ e1 ∈ e0 :: rest, ∃ e2 ∈ e0 :: rest, entryNeg e1 ≠ entryNeg e2) := by
  constructor
  · rintro ⟨e, he, hne⟩
    exact ⟨e, List.mem_cons_of_mem _ he, e0, List.mem_cons_self _ _, hne⟩
  · rintro ⟨e1, he1, e2, he2, hne⟩
    rcases List.mem_cons.mp he1 with rfl | h1
    · rcases List.mem_cons.mp he2 with rfl | h2
      · exact absurd rfl hne
      · exact ⟨e2, h2, fun h => hne h.symm⟩
    · by_cases hq : entryNeg e1 = entryNeg e0
      · rcases List.mem_cons.mp he2 with rfl | h2
        · exact absurd hq hne
        · exact ⟨e2, h2, fun h => hne (by rw [hq, h])⟩
      · exact ⟨e1, h1, hq⟩

/-- C10: the empty capability-filter string yields the filter accepting
every capability; a non-empty list fails to parse iff some entry is empty
or names an unknown capability, or negated and unnegated entries are
mixed; and on success the filter accepts exactly the listed capabilities,
or exactly their complement when the entries are negated. -/
theorem c10_capability_filter :
    (NewCapabilitySet "" = .ok none) ∧
    (∀ c : Capability, CapabilitySet.Has none c = true) ∧
    (∀ (cs e0 : String) (rest : List String),
        (cs.length == 0) = false → goSplitComma cs = e0 :: rest →
        (((NewCapabilitySet cs).isOk = false) ↔
          ((∃ e ∈ e0 :: rest, entryBad e = true) ∨
           (∃ e1 ∈ e0 :: rest, ∃ e2 ∈ e0 :: rest,
              entryNeg e1 ≠ entryNeg e2)))) ∧
    (∀ (cs e0 : String) (rest : List String) (st : Option CapabilitySet),
        (cs.length == 0) = false → goSplitComma cs = e0 :: rest →
        NewCapabilitySet cs = .ok st →
        ∀ c : Capability,
          CapabilitySet.Has st c
            = ((decide (∃ e ∈ e0 :: rest, capToken (entryCore e) = some c))
                != entryNeg e0)) := by
  refine ⟨by decide, fun c => rfl, ?_, ?_⟩
  · intro cs e0 rest hlen hsplit
    unfold NewCapabilitySet
    rw [hlen, hsplit]
    simp only [Bool.false_eq_true, if_false]
    have h := capListLoop_start e0 rest
    cases hc : capListLoop (e0 :: rest) 0 false [] with
    | error e =>
      have hbad := h.1.mp (by rw [hc]; rfl)
      simp only [hc, Except.isOk, Except.toBool]
      constructor
      · intro _
        rcases hbad with hb | hb
        · exact Or.inl hb
        · exact Or.inr ((mixed_pair_iff e0 rest).mp hb)
      · intro _; trivial
    | ok r =>
      have hgood : ¬ (((∃ e ∈ e0 :: rest, entryBad e = true)) ∨
          (∃ e ∈ rest, entryNeg e ≠ entryNeg e0)) := by
        intro hbad
        have := h.1.mpr hbad
        rw [hc] at this
        simp [Except.isOk, Except.toBool] at this
      obtain ⟨out, negd⟩ := r
      simp only [hc, Except.isOk, Except.toBool]
      constructor
      · intro hfalse
        cases hfalse
      · intro hbad
        rcases hbad with hb | hb
        · exact absurd (Or.inl hb) hgood
        · exact absurd (Or.inr ((mixed_pair_iff e0 rest).mpr hb)) hgood
  · intro cs e0 rest st hlen hsplit hok c
    unfold NewCapabilitySet at hok
    rw [hlen, hsplit] at hok
    simp only [Bool.false_eq_true, if_false] at hok
    cases hc : capListLoop (e0 :: rest) 0 false [] with
    | error e =>
      rw [hc] at hok
      cases hok
    | ok r =>
      have hr := (capListLoop_start e0 rest).2 _ hc
      subst hr
      rw [hc] at hok
      cases hok
      simp only [CapabilitySet.Has]
      congr 1
      rw [Bool.eq_iff_iff, List.elem_iff, decide_eq_true_eq]
      constructor
      · intro hmem
        exact List.mem_filterMap.mp hmem
      · intro hx
        exact List.mem_filterMap.mpr hx

/-- C2: for every classifier whose unanalyzed table holds only the
`Unanalyzed` capability (as every parsed capability map does), package
path `p` and function name `f`, `FunctionCategory` returns exactly what
spec §4.1's `classify` prescribes: `Cgo` on a cgo-suffix match, else the
`functionCategory` entry (even `Unspecified`), else `Unanalyzed` for an
`unanalyzedCategory` key, else the `packageCategory` entry, else
`Unspecified`.  In particular function-level entries override
package-level entries, and cgo suffixes override function-level
entries. -/
theorem c2_classify_precedence (c : Classifier)
    (h : ∀ kv ∈ c.unanalyzedCategory, kv.2 = Capability.unanalyzed)
    (pkg fname : String) :
    FunctionCategory c pkg fname = classifySpec c pkg fname := by
  unfold FunctionCategory classifySpec
  by_cases hc : (c.cgoSuffixes.any (fun s => goHasSuffix fname s)) = true
  · simp [hc]
  · rw [Bool.not_eq_true] at hc
    simp only [hc, Bool.false_eq_true, if_false]
    cases hf : c.functionCategory.lookup fname with
    | some cat => simp [hf]
    | none =>
      simp only [hf]
      cases hu : c.unanalyzedCategory.lookup fname with
      | some cat =>
        have hcat : cat = Capability.unanalyzed := h (fname, cat) (lookup_mem hu)
        simp [hu, hcat]
      | none =>
        cases hp : c.packageCategory.lookup pkg with
        | some cat => simp [hu, hp]
        | none => simp [hu, hp]

/-- Witness for C2 at a concrete classifier and query. -/
theorem c2_classify_precedence_witness :
    (∀ kv ∈ ({ functionCategory := [("os.Open", Capability.files)],
               unanalyzedCategory := [("x.Y", Capability.unanalyzed)],
               packageCategory := [("os", Capability.operatingSystem)],
               ignoredEdges := [],
               cgoSuffixes := ["_Cfunc_GoString"] } : Classifier).unanalyzedCategory,
        kv.2 = Capability.unanalyzed) ∧
    FunctionCategory
        { functionCategory := [("os.Open", Capability.files)],
          unanalyzedCategory := [("x.Y", Capability.unanalyzed)],
          packageCategory := [("os", Capability.operatingSystem)],
          ignoredEdges := [],
          cgoSuffixes := ["_Cfunc_GoString"] } "os" "os.Getenv"
      = classifySpec
          { functionCategory := [("os.Open", Capability.files)],
            unanalyzedCategory := [("x.Y", Capability.unanalyzed)],
            packageCategory := [("os", Capability.operatingSystem)],
            ignoredEdges := [],
            cgoSuffixes := ["_Cfunc_GoString"] } "os" "os.Getenv" :=
  ⟨by decide, c2_classify_precedence _ (by decide) "os" "os.Getenv"⟩

/-- C3 (code evaluation): a classifier loaded from a user-supplied map
containing `ignore_edge a b` (built-in map excluded) records the pair in
its own `ignoredEdges`, yet `IncludeCall` still returns `true` for
`(a, b)` whenever the package-global built-in map lacks the pair: the Go
method reads `internalMap.ignoredEdges`, never the receiver's. -/
theorem c3_includecall_reads_global_map (internal uc : Classifier)
    (h : internal.ignoredEdges.contains ("a", "b") = false)
    (hu : LoadClassifier internal "user" ["ignore_edge a b"] true = .ok uc) :
    uc.ignoredEdges.contains ("a", "b") = true ∧
    IncludeCall internal uc "a" "b" = true := by
  have heval : LoadClassifier internal "user" ["ignore_edge a b"] true
      = .ok { newClassifier with ignoredEdges := [("a", "b")] } := rfl
  rw [heval] at hu
  cases hu
  refine ⟨by decide, ?_⟩
  show (!(internal.ignoredEdges.contains ("a", "b"))) = true
  rw [h]
  rfl

/-- Witness for C3 at the empty built-in map. -/
theorem c3_includecall_reads_global_map_witness :
    (newClassifier.ignoredEdges.contains ("a", "b") = false) ∧
    (({ newClassifier with ignoredEdges := [("a", "b")] } :
        Classifier).ignoredEdges.contains ("a", "b") = true ∧
     IncludeCall newClassifier
        { newClassifier with ignoredEdges := [("a", "b")] } "a" "b" = true) :=
  ⟨by decide,
   c3_includecall_reads_global_map newClassifier _ (by decide) (by decide)⟩

/-- C8 counterexample: the claim says a repeated `cgo_suffix` key in the
same source is a hard error like the other keywords' duplicates, but the
code appends cgo suffixes unconditionally, so a map repeating
`cgo_suffix x` parses successfully. -/
theorem c8_duplicate_cgo_suffix_accepted :
    parseCapabilityMap "s" ["cgo_suffix x", "cgo_suffix x"]
      = .ok { newClassifier with cgoSuffixes := ["x", "x"] } := by
  decide

/-- C8 (amended): a parser step fails iff the line (after `#`-comment
stripping) is non-blank and has fewer arguments than its keyword needs,
an unknown keyword, a duplicate `func`/`package`/`unanalyzed`/
`ignore_edge` key (duplicate `cgo_suffix` entries are accepted and
appended), or an unknown capability; every error carries the source name
and line number; blank and comment-only lines are ignored; and the whole
parser fails iff some line is bad for the state accumulated before it. -/
theorem c8_parse_error_conditions :
    (∀ (src : String) (ln : Nat) (ret : Classifier) (text : String),
        ((parseLine src ln ret text).isOk = false) ↔ BadLineB ret text = true) ∧
    (∀ (src : String) (ln : Nat) (ret : Classifier) (text : String)
        (e : MapFormatError), parseLine src ln ret text = .error e →
        e.source = src ∧ e.line = ln) ∧
    (∀ (src : String) (ln : Nat) (ret : Classifier) (text : String),
        fields ((splitHash text).headD "") = [] →
        parseLine src ln ret text = .ok ret) ∧
    (∀ (src : String) (lines : List String),
        ((parseCapabilityMap src lines).isOk = false) ↔
        ∃ i, i < lines.length ∧ ∃ ret2,
          parseCapabilityMapFrom src newClassifier 0 (lines.take i) = .ok ret2 ∧
          BadLineB ret2 (lines.getD i "") = true) :=
  ⟨parseLine_err_iff, parseLine_err_context, parseLine_blank,
   fun src lines => parseFrom_err_iff src lines newClassifier 0⟩

/-- The element loop of the composite-literal case is `List.any`. -/
theorem anyMayHaveSideEffects_eq_any (l : List AstExpr) :
    anyMayHaveSideEffects l = l.any mayHaveSideEffects := by
  induction l with
  | nil => rfl
  | cons e rest ih => simp [anyMayHaveSideEffects, ih]

/-- C9 counterexample: the claim says every composite-literal expression
is treated as side-effecting, but `mayHaveSideEffects` returns `false`
for a composite literal whose elements are all side-effect-free — here
the empty composite literal (e.g. `T{}`). -/
theorem c9_composite_literal_not_side_effecting :
    mayHaveSideEffects (.compositeLit []) = false := rfl

/-- C9 (amended): identifiers, basic literals and function literals are
side-effect-free; selectors, index, slice, unary and binary expressions
are side-effect-free exactly when their operands are; every function
call is side-effecting; a composite literal is side-effecting exactly
when some element is; and the method matcher leaves a call with a
possibly-side-effecting receiver unmatched (so such a `(*sync.Once).Do`
statement is not rewritten). -/
theorem c9_side_effect_check :
    (mayHaveSideEffects .ident = false) ∧
    (mayHaveSideEffects .basicLit = false) ∧
    (mayHaveSideEffects .funcLit = false) ∧
    (∀ (fn : AstExpr) (args : List AstExpr),
        mayHaveSideEffects (.callExpr fn args) = true) ∧
    (∀ elts : List AstExpr,
        mayHaveSideEffects (.compositeLit elts) = elts.any mayHaveSideEffects) ∧
    (∀ (x : AstExpr) (s : String),
        mayHaveSideEffects (.selectorExpr x s) = mayHaveSideEffects x) ∧
    (∀ x idx : AstExpr,
        mayHaveSideEffects (.indexExpr x idx)
          = (mayHaveSideEffects x || mayHaveSideEffects idx)) ∧
    (∀ (x : AstExpr) (lo hi mx : Option AstExpr),
        mayHaveSideEffects (.sliceExpr x lo hi mx)
          = (mayHaveSideEffects x || optMayHaveSideEffects lo ||
             optMayHaveSideEffects hi || optMayHaveSideEffects mx)) ∧
    (∀ x : AstExpr, mayHaveSideEffects (.unaryExpr x) = mayHaveSideEffects x) ∧
    (∀ x y : AstExpr,
        mayHaveSideEffects (.binaryExpr x y)
          = (mayHaveSideEffects x || mayHaveSideEffects y)) ∧
    (∀ (m : MethodMatcher) (typeOf : AstExpr → Option GoType)
        (x : AstExpr) (sel : String) (args : List AstExpr),
        mayHaveSideEffects x = true →
        MethodMatcher.matchCall m typeOf (.callExpr (.selectorExpr x sel) args)
          = none) := by
  refine ⟨rfl, rfl, rfl, fun fn args => rfl,
    fun elts => ?_, fun x s => rfl, fun x idx => rfl,
    fun x lo hi mx => rfl, fun x => rfl, fun x y => rfl, ?_⟩
  · simp [mayHaveSideEffects, anyMayHaveSideEffects_eq_any]
  · intro m typeOf x sel args h
    simp [MethodMatcher.matchCall, h]

/-- Results of walking one child flow into the walk of any list
containing it. -/
theorem visitList_mem (cur : Option Nat) (child : GoAst) :
    ∀ l : List GoAst, child ∈ l →
    (∀ i, i ∈ (visitNode cur child).1 → i ∈ (visitList cur l).1) ∧
    ((visitNode cur child).2 = true → (visitList cur l).2 = true) := by
  intro l
  induction l with
  | nil => intro h; cases h
  | cons n rest ih =>
    intro h
    rcases List.mem_cons.mp h with rfl | h2
    · refine ⟨?_, ?_⟩
      · intro i hi
        simp only [visitList, List.mem_append]
        exact Or.inl hi
      · intro hf
        simp [visitList, hf]
    · refine ⟨?_, ?_⟩
      · intro i hi
        simp only [visitList, List.mem_append]
        exact Or.inr ((ih h2).1 i hi)
      · intro hf
        simp [visitList, (ih h2).2 hf]

/-- Results of walking one argument flow into the walk of any argument
list containing it. -/
theorem visitArgs_mem (cur : Option Nat) (child : GoAst) :
    ∀ (args : List (Option GoType × GoAst)) (ty : Option GoType),
    (ty, child) ∈ args →
    (∀ i, i ∈ (visitNode cur child).1 → i ∈ (visitArgs cur args).1) ∧
    ((visitNode cur child).2 = true → (visitArgs cur args).2 = true) := by
  intro args
  induction args with
  | nil => intro ty h; cases h
  | cons p rest ih =>
    intro ty h
    rcases List.mem_cons.mp h with rfl | h2
    · refine ⟨?_, ?_⟩
      · intro i hi
        simp only [visitArgs, List.mem_append]
        exact Or.inl hi
      · intro hf
        simp [visitArgs, hf]
    · obtain ⟨ty2, n⟩ := p
      refine ⟨?_, ?_⟩
      · intro i hi
        simp only [visitArgs, List.mem_append]
        exact Or.inr ((ih ty h2).1 i hi)
      · intro hf
        simp [visitArgs, (ih ty h2).2 hf]

/-- Results of walking a call's arguments flow into the result of the
call node itself, whether or not the call is itself a conversion. -/
theorem visitNode_call_mono (cur : Option Nat) (funTv : Option GoType)
    (args : List (Option GoType × GoAst)) :
    (∀ i, i ∈ (visitArgs cur args).1 →
        i ∈ (visitNode cur (.callExpr funTv args)).1) ∧
    ((visitArgs cur args).2 = true →
        (visitNode cur (.callExpr funTv args)).2 = true) := by
  by_cases hconv : isRawPtrConversion funTv args = true
  · cases cur with
    | some j =>
      refine ⟨?_, ?_⟩
      · intro i hi
        simp only [visitNode, hconv, if_true, List.mem_cons]
        exact Or.inr hi
      · intro hf
        simp [visitNode, hconv, hf]
    | none =>
      refine ⟨?_, ?_⟩
      · intro i hi
        simpa [visitNode, hconv] using hi
      · intro hf
        simp [visitNode, hconv]
  · rw [Bool.not_eq_true] at hconv
    refine ⟨?_, ?_⟩
    · intro i hi
      simpa [visitNode, hconv] using hi
    · intro hf
      simpa [visitNode, hconv] using hf

/-- Every occurrence of a qualifying conversion flags its innermost
enclosing function, or raises the initialization flag when it occurs
outside every function definition. -/
theorem visit_flags :
    ∀ (cur0 cur : Option Nat) (root e : GoAst),
    OccAt cur0 root cur e →
    ∀ (funTv : Option GoType) (args : List (Option GoType × GoAst)),
    e = .callExpr funTv args →
    isRawPtrConversion funTv args = true →
    (∀ i, cur = some i → i ∈ (visitNode cur0 root).1) ∧
    (cur = none → (visitNode cur0 root).2 = true) := by
  intro cur0 cur root e hocc
  induction hocc with
  | here cur n =>
    intro funTv args he hconv
    subst he
    refine ⟨?_, ?_⟩
    · rintro i rfl
      simp [visitNode, hconv]
    · rintro rfl
      simp [visitNode, hconv]
  | inFunc hm hsub ih =>
    intro funTv args he hconv
    have h := ih funTv args he hconv
    refine ⟨?_, ?_⟩
    · rintro i rfl
      have := (visitList_mem _ _ _ hm).1 i (h.1 i rfl)
      simpa [visitNode] using this
    · rintro rfl
      have := (visitList_mem _ _ _ hm).2 (h.2 rfl)
      simpa [visitNode] using this
  | inCall hm hsub ih =>
    intro funTv args he hconv
    have h := ih funTv args he hconv
    refine ⟨?_, ?_⟩
    · rintro i rfl
      exact (visitNode_call_mono _ _ _).1 i ((visitArgs_mem _ _ _ _ hm).1 i (h.1 i rfl))
    · rintro rfl
      exact (visitNode_call_mono _ _ _).2 ((visitArgs_mem _ _ _ _ hm).2 (h.2 rfl))
  | inOther hm hsub ih =>
    intro funTv args he hconv
    have h := ih funTv args he hconv
    refine ⟨?_, ?_⟩
    · rintro i rfl
      have := (visitList_mem _ _ _ hm).1 i (h.1 i rfl)
      simpa [visitNode] using this
    · rintro rfl
      have := (visitList_mem _ _ _ hm).2 (h.2 rfl)
      simpa [visitNode] using this

/-- A conversion to a type whose underlying type is not `uintptr`, from
a sole argument whose underlying type is `unsafe.Pointer`, qualifies. -/
theorem isRawPtrConversion_true (t at1 : GoType) (arg : GoAst)
    (harg : underlying at1 = .basic .unsafePointerKind)
    (ht : underlying t ≠ .basic .uintptrKind) :
    isRawPtrConversion (some t) [(some at1, arg)] = true := by
  unfold isRawPtrConversion
  cases hu : underlying t with
  | basic k =>
    cases k with
    | uintptrKind => exact absurd hu ht
    | unsafePointerKind => simp [harg]
    | otherKind => simp [harg]
  | pointer e => simp [harg]
  | named p n u => simp [harg]
  | otherType => simp [harg]

/-- C6: for every type-conversion expression in the walked files whose
sole argument's underlying type is `unsafe.Pointer`: when the target
type's underlying type is not `uintptr`, the innermost enclosing
function definition is flagged (with the `UnsafePointer` capability
downstream), and a conversion outside every function definition flags
the package initializer instead; when the target's underlying type is
`uintptr`, the conversion does not qualify and flags nothing. -/
theorem c6_raw_pointer_conversion_flagging
    (files : List GoAst) (file e : GoAst) (cur : Option Nat) (initId : Nat)
    (hfile : file ∈ files) (hocc : OccAt none file cur e)
    (t at1 : GoType) (arg : GoAst)
    (he : e = .callExpr (some t) [(some at1, arg)])
    (harg : underlying at1 = .basic .unsafePointerKind) :
    (underlying t ≠ .basic .uintptrKind →
      (∀ i, cur = some i → i ∈ findUnsafePointerConversions files initId) ∧
      (cur = none → initId ∈ findUnsafePointerConversions files initId)) ∧
    (underlying t = .basic .uintptrKind →
      isRawPtrConversion (some t) [(some at1, arg)] = false) := by
  constructor
  · intro ht
    have hconv := isRawPtrConversion_true t at1 arg harg ht
    have h := visit_flags none cur file e hocc (some t) [(some at1, arg)] he hconv
    refine ⟨?_, ?_⟩
    · rintro i rfl
      have hi := (visitList_mem none file files hfile).1 i (h.1 i rfl)
      show i ∈ (if (visitList none files).2 = true then
        (visitList none files).1 ++ [initId] else (visitList none files).1)
      split
      · exact List.mem_append_left _ hi
      · exact hi
    · rintro rfl
      have hflag := (visitList_mem none file files hfile).2 (h.2 rfl)
      show initId ∈ (if (visitList none files).2 = true then
        (visitList none files).1 ++ [initId] else (visitList none files).1)
      rw [hflag]
      simp
  · intro ht
    simp [isRawPtrConversion, ht]

/-- Witness for C6: a file whose function with id 7 contains the
conversion `(*T)(p)` from an `unsafe.Pointer`-typed argument. -/
theorem c6_raw_pointer_conversion_flagging_witness :
    ((GoAst.funcDef 7
        [.callExpr (some (.pointer .otherType))
          [(some (.basic .unsafePointerKind), .otherNode [])]])
      ∈ [GoAst.funcDef 7
        [.callExpr (some (.pointer .otherType))
          [(some (.basic .unsafePointerKind), .otherNode [])]]]) ∧
    ((underlying (.pointer .otherType) ≠ GoType.basic .uintptrKind →
      (∀ i, (some 7 : Option Nat) = some i →
        i ∈ findUnsafePointerConversions
          [GoAst.funcDef 7
            [.callExpr (some (.pointer .otherType))
              [(some (.basic .unsafePointerKind), .otherNode [])]]] 0) ∧
      ((some 7 : Option Nat) = none →
        0 ∈ findUnsafePointerConversions
          [GoAst.funcDef 7
            [.callExpr (some (.pointer .otherType))
              [(some (.basic .unsafePointerKind), .otherNode [])]]] 0)) ∧
    (underlying (.pointer .otherType) = GoType.basic .uintptrKind →
      isRawPtrConversion (some (.pointer .otherType))
        [(some (.basic .unsafePointerKind), .otherNode [])] = false)) :=
  ⟨List.mem_cons_self _ _,
   c6_raw_pointer_conversion_flagging _ _ _ (some 7) 0
     (List.mem_cons_self _ _)
     (OccAt.inFunc (List.mem_cons_self _ _) (OccAt.here _ _))
     (.pointer .otherType) (.basic .unsafePointerKind) (.otherNode [])
     rfl rfl⟩

/-- C7 counterexample: `BOGUS` names a capability in neither the short
nor the `CAPABILITY_`-prefixed form, yet the string-valued parser accepts
it verbatim — `func f BOGUS` parses successfully — contradicting the
claim that such a token causes parsing to fail. -/
theorem c7_unknown_short_token_parses :
    SV.parseCapability "BOGUS" = some "BOGUS" ∧
    SV.parseCapabilityMap "s" ["func f BOGUS"]
      = .ok { SV.newClassifier with functionCategory := [("f", "BOGUS")] } := by
  exact ⟨by decide, by decide⟩

/-- C7 (amended): the parser accepts the legacy `CAPABILITY_`-prefixed
spelling of every real capability and strips the prefix, and for each
capability other than `UNSPECIFIED` the two spellings produce identical
classifier entries; `CAPABILITY_UNSPECIFIED` becomes the empty category
while unprefixed `UNSPECIFIED` stays verbatim; unknown
`CAPABILITY_`-prefixed tokens are rejected, while unprefixed tokens are
accepted verbatim with no validation. -/
theorem c7_capability_token_handling :
    (∀ c : Capability, c ≠ Capability.unspecified →
      SV.parseCapability ("CAPABILITY_" ++ shortName c) = some (shortName c) ∧
      SV.parseCapability (shortName c) = some (shortName c) ∧
      SV.parseCapabilityMap "s" ["func fn " ++ ("CAPABILITY_" ++ shortName c)]
        = SV.parseCapabilityMap "s" ["func fn " ++ shortName c]) ∧
    SV.parseCapability "CAPABILITY_UNSPECIFIED" = some "" ∧
    SV.parseCapability "UNSPECIFIED" = some "UNSPECIFIED" ∧
    (∀ s : String, goHasPre s "CAPABILITY_" = false →
      SV.parseCapability s = some s) ∧
    (∀ s : String, goHasPre s "CAPABILITY_" = true → Capability_value s = none →
      SV.parseCapability s = none) := by
  refine ⟨?_, by decide, by decide, ?_, ?_⟩
  · intro c hc
    cases c
    case unspecified => exact absurd rfl hc
    all_goals exact ⟨by decide, by decide, by decide⟩
  · intro s hs
    unfold SV.parseCapability
    simp [hs]
  · intro s hs hv
    unfold SV.parseCapability
    simp [hs, hv]

/-- A node denoting function `(p, f)` is categorized exactly as the
classifier classifies `(p, f)`. -/
theorem nodeCategory_of_isFunc (cl : Classifier) (p f : String)
    (nd : FuncNode) (h : NodeIsFunc p f nd) :
    nodeCategory cl nd = some (FunctionCategory cl p f) := by
  rcases h with ⟨hp, hn⟩ | ⟨hp, ho⟩
  · simp only [nodeCategory, hp, hn]
  · simp only [nodeCategory, hp, ho]

/-- C1: if the classifier deems `(p, f)` Safe, then for every capability
the backward BFS never visits a node denoting `(p, f)`, and no emitted
finding attributes a capability to such a node or carries it on its
witness path. -/
theorem c1_safe_soundness (internal cl : Classifier) (g : Graph)
    (reflectNodes rawConvNodes : List FuncNode) (disableBuiltin : Bool)
    (queried : List String) (p f : String)
    (hsafe : FunctionCategory cl p f = Capability.safe) :
    (∀ cap : Capability,
      ∀ kv ∈ (searchCap internal cl g reflectNodes rawConvNodes
          disableBuiltin queried cap).visited,
      ∀ nd ∈ g.nodes, nd.id = kv.1 → ¬ NodeIsFunc p f nd) ∧
    (∀ fd ∈ forEachPathFindings internal cl g reflectNodes rawConvNodes
        disableBuiltin queried,
      (∀ nd ∈ g.nodes, nd.id = fd.fnId → ¬ NodeIsFunc p f nd) ∧
      (∀ i ∈ fd.path, ∀ nd ∈ g.nodes, nd.id = i → ¬ NodeIsFunc p f nd)) := by
  constructor
  · intro cap kv hkv nd hnd hid hisf
    have hinv := forEachPathCap_inv internal cl g
      (mergeCapabilities (nodesByCapability cl g)
        (if disableBuiltin then (fun _ => [])
         else getExtraNodesByCapability g reflectNodes rawConvNodes)).1
      ((safeNodes cl g).map (fun v => v.id))
      ((mergeCapabilities (nodesByCapability cl g)
        (if disableBuiltin then (fun _ => [])
         else getExtraNodesByCapability g reflectNodes rawConvNodes)).2.map
        (fun v => v.id))
      queried cap rfl
    exact hinv.1 kv hkv nd hnd hid
      (by rw [nodeCategory_of_isFunc cl p f nd hisf, hsafe])
  · intro fd hfd
    simp only [forEachPathFindings] at hfd
    rcases List.mem_flatten.mp hfd with ⟨l, hl, hfdl⟩
    rcases List.mem_map.mp hl with ⟨c, _, rfl⟩
    have hinv := forEachPathCap_inv internal cl g
      (mergeCapabilities (nodesByCapability cl g)
        (if disableBuiltin then (fun _ => [])
         else getExtraNodesByCapability g reflectNodes rawConvNodes)).1
      ((safeNodes cl g).map (fun v => v.id))
      ((mergeCapabilities (nodesByCapability cl g)
        (if disableBuiltin then (fun _ => [])
         else getExtraNodesByCapability g reflectNodes rawConvNodes)).2.map
        (fun v => v.id))
      queried c rfl
    have h3 := hinv.2.2.1 fd hfdl
    constructor
    · intro nd hnd hid hisf
      rcases isSome_lookup_mem h3.1 with ⟨x, hmem⟩
      exact hinv.1 (fd.fnId, x) hmem nd hnd hid
        (by rw [nodeCategory_of_isFunc cl p f nd hisf, hsafe])
    · intro i hi nd hnd hid hisf
      rcases isSome_lookup_mem (h3.2 i hi) with ⟨x, hmem⟩
      exact hinv.1 (i, x) hmem nd hnd hid
        (by rw [nodeCategory_of_isFunc cl p f nd hisf, hsafe])

/-- On the concrete graph `wg`, where `q.s` is Safe, the search over
queried package `m` never touches the safe node. -/
theorem c1_safe_soundness_witness :
    FunctionCategory wcl "q" "q.s" = Capability.safe ∧
    ((∀ cap : Capability,
      ∀ kv ∈ (searchCap wcl wcl wg [] [] false ["m"] cap).visited,
      ∀ nd ∈ wg.nodes, nd.id = kv.1 → ¬ NodeIsFunc "q" "q.s" nd) ∧
    (∀ fd ∈ forEachPathFindings wcl wcl wg [] [] false ["m"],
      (∀ nd ∈ wg.nodes, nd.id = fd.fnId → ¬ NodeIsFunc "q" "q.s" nd) ∧
      (∀ i ∈ fd.path, ∀ nd ∈ wg.nodes, nd.id = i →
        ¬ NodeIsFunc "q" "q.s" nd))) :=
  ⟨by decide, c1_safe_soundness wcl wcl wg [] [] false ["m"] "q" "q.s"
    (by decide)⟩

/-- C4: an explicitly categorized function is never reached by the BFS
expansion (its node is never visited via an edge), so a finding for a
capability other than its own never has it strictly inside the witness
path; it can appear only as the capability root itself. -/
theorem c4_explicit_stop (internal cl : Classifier) (g : Graph)
    (reflectNodes rawConvNodes : List FuncNode) (disableBuiltin : Bool)
    (queried : List String) (nd : FuncNode) (cf : Capability)
    (hids : (g.nodes.map (fun v => v.id)).Nodup)
    (hnd : nd ∈ g.nodes)
    (hcat : nodeCategory cl nd = some cf)
    (hcf1 : cf ≠ Capability.unspecified) (hcf2 : cf ≠ Capability.safe) :
    (∀ (cap : Capability) (e : Edge),
      (nd.id, some e) ∉ (searchCap internal cl g reflectNodes rawConvNodes
        disableBuiltin queried cap).visited) ∧
    (∀ fd ∈ forEachPathFindings internal cl g reflectNodes rawConvNodes
        disableBuiltin queried, fd.cap ≠ cf → nd.id ∉ fd.path) := by
  have hb1 : (cf == Capability.unspecified) = false :=
    beq_eq_false_iff_ne.mpr hcf1
  have hb2 : (cf == Capability.safe) = false := beq_eq_false_iff_ne.mpr hcf2
  have hndByCap : nd ∈ nodesByCapability cl g cf := by
    unfold nodesByCapability
    simp only [hb1, hb2, Bool.or_self, Bool.false_eq_true, if_false]
    exact List.mem_filter.mpr ⟨hnd, by rw [hcat]; exact beq_self_eq_true _⟩
  have hexpFl : nd ∈ (allCapabilities.map (nodesByCapability cl g)).flatten :=
    List.mem_flatten.mpr ⟨nodesByCapability cl g cf,
      List.mem_map.mpr ⟨cf, mem_allCapabilities cf, rfl⟩, hndByCap⟩
  have hexp : nd ∈ (mergeCapabilities (nodesByCapability cl g)
      (if disableBuiltin then (fun _ => [])
       else getExtraNodesByCapability g reflectNodes rawConvNodes)).2 :=
    hexpFl
  have hxid : ((mergeCapabilities (nodesByCapability cl g)
      (if disableBuiltin then (fun _ => [])
       else getExtraNodesByCapability g reflectNodes rawConvNodes)).2.map
      (fun v => v.id)).contains nd.id = true :=
    List.elem_iff.mpr (List.mem_map.mpr ⟨nd, hexp, rfl⟩)
  constructor
  · intro cap e hmem
    have hinv := forEachPathCap_inv internal cl g
      (mergeCapabilities (nodesByCapability cl g)
        (if disableBuiltin then (fun _ => [])
         else getExtraNodesByCapability g reflectNodes rawConvNodes)).1
      ((safeNodes cl g).map (fun v => v.id))
      ((mergeCapabilities (nodesByCapability cl g)
        (if disableBuiltin then (fun _ => [])
         else getExtraNodesByCapability g reflectNodes rawConvNodes)).2.map
        (fun v => v.id))
      queried cap rfl
    have h6 : ((mergeCapabilities (nodesByCapability cl g)
        (if disableBuiltin then (fun _ => [])
         else getExtraNodesByCapability g reflectNodes rawConvNodes)).2.map
        (fun v => v.id)).contains nd.id = false :=
      hinv.2.2.2.2.2.1 (nd.id, some e) hmem e rfl
    rw [h6] at hxid
    cases hxid
  · intro fd hfd hne hpath
    simp only [forEachPathFindings] at hfd
    rcases List.mem_flatten.mp hfd with ⟨l, hl, hfdl⟩
    rcases List.mem_map.mp hl with ⟨c, _, rfl⟩
    have hinv := forEachPathCap_inv internal cl g
      (mergeCapabilities (nodesByCapability cl g)
        (if disableBuiltin then (fun _ => [])
         else getExtraNodesByCapability g reflectNodes rawConvNodes)).1
      ((safeNodes cl g).map (fun v => v.id))
      ((mergeCapabilities (nodesByCapability cl g)
        (if disableBuiltin then (fun _ => [])
         else getExtraNodesByCapability g reflectNodes rawConvNodes)).2.map
        (fun v => v.id))
      queried c rfl
    have hcapfd : fd.cap = c := hinv.2.2.2.2.2.2 fd hfdl
    have h3 := (hinv.2.2.1 fd hfdl).2 nd.id hpath
    rcases isSome_lookup_mem h3 with ⟨x, hmem⟩
    cases x with
    | some e =>
      have h6 : ((mergeCapabilities (nodesByCapability cl g)
          (if disableBuiltin then (fun _ => [])
           else getExtraNodesByCapability g reflectNodes rawConvNodes)).2.map
          (fun v => v.id)).contains nd.id = false :=
        hinv.2.2.2.2.2.1 (nd.id, some e) hmem e rfl
      rw [h6] at hxid
      cases hxid
    | none =>
      have h5 := hinv.2.2.2.2.1 (nd.id, none) hmem rfl
      rcases List.mem_map.mp h5 with ⟨r, hr, hrid⟩
      have hsub := capRoots_subset _ _ c r hr
      have hrg : r ∈ g.nodes := merged_subset_nodes cl g reflectNodes
        rawConvNodes disableBuiltin c r hsub.1
      have hreq : r = nd :=
        nodup_map_inj (fun v => v.id) hids r hrg nd hnd hrid
      rw [hreq] at hsub
      have hm1 : (mergeCapabilities (nodesByCapability cl g)
          (if disableBuiltin then (fun _ => [])
           else getExtraNodesByCapability g reflectNodes rawConvNodes)).1 c
        = nodesByCapability cl g c
          ++ ((if disableBuiltin then (fun _ => [])
               else getExtraNodesByCapability g reflectNodes rawConvNodes) c).filter
            (fun n => !(((allCapabilities.map (nodesByCapability cl g)).flatten).contains n)) :=
        rfl
      rw [hm1] at hsub
      rcases List.mem_append.mp hsub.1 with hb | hb
      · unfold nodesByCapability at hb
        split at hb
        · cases hb
        · have hcc := (List.mem_filter.mp hb).2
          rw [hcat] at hcc
          have hcfc : cf = c := Option.some.inj (eq_of_beq hcc)
          exact hne (hcapfd.trans hcfc.symm)
      · have hfil := List.mem_filter.mp hb
        have hnc : ((allCapabilities.map (nodesByCapability cl g)).flatten).contains nd
            = false := by
          have h7 := hfil.2
          rwa [Bool.not_eq_true'] at h7
        have h8 : ((allCapabilities.map (nodesByCapability cl g)).flatten).contains nd
            = true := List.elem_iff.mpr hexpFl
        rw [hnc] at h8
        cases h8

/-- On the concrete graph `wg`, the file-reading node `q.g` (explicitly
categorized `files`) is never expanded into, and appears inside no
finding of another capability. -/
theorem c4_explicit_stop_witness :
    ((wg.nodes.map (fun v => v.id)).Nodup ∧ wn1 ∈ wg.nodes ∧
      nodeCategory wcl wn1 = some Capability.files ∧
      Capability.files ≠ Capability.unspecified ∧
      Capability.files ≠ Capability.safe) ∧
    ((∀ (cap : Capability) (e : Edge),
      (wn1.id, some e) ∉ (searchCap wcl wcl wg [] [] false ["m"] cap).visited) ∧
    (∀ fd ∈ forEachPathFindings wcl wcl wg [] [] false ["m"],
      fd.cap ≠ Capability.files → wn1.id ∉ fd.path)) :=
  ⟨⟨by decide, by decide, by decide, by decide, by decide⟩,
   c4_explicit_stop wcl wcl wg [] [] false ["m"] wn1 Capability.files
     (by decide) (by decide) (by decide) (by decide) (by decide)⟩

/-- C5: the merge policy, as implemented — a scanner finding `(c, n)` is
in the merged map at `c` iff `n` is not explicitly categorized at all, or
`n` is explicitly categorized with `c` itself (the explicit entries are
always kept). The claim's unconditional "iff `n` not explicit" fails when
`n` is explicitly categorized as `c`; and because the explicit set holds
no Safe nodes, a Safe-categorized function's scanner finding is kept,
contrary to the claim's parenthetical. -/
theorem c5_scanner_merge_policy (byCap extra : Capability → List FuncNode)
    (c : Capability) (n : FuncNode) (hn : n ∈ extra c) :
    (n ∈ (mergeCapabilities byCap extra).1 c ↔
      (n ∈ byCap c ∨ n ∉ (mergeCapabilities byCap extra).2)) := by
  have h1 : (mergeCapabilities byCap extra).1 c
      = byCap c ++ (extra c).filter
          (fun m => !(((allCapabilities.map byCap).flatten).contains m)) := rfl
  have h2 : (mergeCapabilities byCap extra).2
      = (allCapabilities.map byCap).flatten := rfl
  rw [h1, h2]
  constructor
  · intro h
    rcases List.mem_append.mp h with hb | hb
    · exact Or.inl hb
    · refine Or.inr ?_
      intro hmem
      have hf := (List.mem_filter.mp hb).2
      rw [Bool.not_eq_true'] at hf
      have hc : ((allCapabilities.map byCap).flatten).contains n = true :=
        List.elem_iff.mpr hmem
      rw [hf] at hc
      cases hc
  · intro h
    rcases h with hb | hnx
    · exact List.mem_append_left _ hb
    · refine List.mem_append_right _ (List.mem_filter.mpr ⟨hn, ?_⟩)
      rw [Bool.not_eq_true']
      cases hcon : ((allCapabilities.map byCap).flatten).contains n with
      | false => rfl
      | true => exact absurd (List.elem_iff.mp hcon) hnx

/-- The merge policy on a concrete instance: `c5n` is explicit under
`files` and scanned under `reflect`, and its `reflect` entry is dropped. -/
theorem c5_scanner_merge_policy_witness :
    c5n ∈ c5extra Capability.reflect ∧
    (c5n ∈ (mergeCapabilities c5byCap c5extra).1 Capability.reflect ↔
      (c5n ∈ c5byCap Capability.reflect ∨
        c5n ∉ (mergeCapabilities c5byCap c5extra).2)) :=
  ⟨by decide,
   c5_scanner_merge_policy c5byCap c5extra Capability.reflect c5n (by decide)⟩

/-- The claim's "include iff not explicit" and its Safe parenthetical
are both false on the real pipeline.  First, `ndC5` is a scanner
(arbitrary-execution) finding AND in the explicit set, yet the merged
map still includes it for that capability.  Second, `ndC5s` is
categorized Safe, so it is NOT in the explicit set (the byCapability
sets hold neither Safe nor Unspecified nodes), and its scanner finding
is kept in the merged map: the merge itself performs no Safe
filtering. -/
theorem c5_explicit_scanner_node_still_included :
    (ndC5 ∈ getExtraNodesByCapability gC5 [] [] Capability.arbitraryExecution ∧
     ndC5 ∈ (mergeCapabilities (nodesByCapability clC5 gC5)
        (getExtraNodesByCapability gC5 [] [])).2 ∧
     ndC5 ∈ (mergeCapabilities (nodesByCapability clC5 gC5)
        (getExtraNodesByCapability gC5 [] [])).1 Capability.arbitraryExecution) ∧
    (nodeCategory clC5s ndC5s = some Capability.safe ∧
     ndC5s ∈ getExtraNodesByCapability gC5s [] [] Capability.arbitraryExecution ∧
     ndC5s ∉ (mergeCapabilities (nodesByCapability clC5s gC5s)
        (getExtraNodesByCapability gC5s [] [])).2 ∧
     ndC5s ∈ (mergeCapabilities (nodesByCapability clC5s gC5s)
        (getExtraNodesByCapability gC5s [] [])).1 Capability.arbitraryExecution) := by
  decide

end Capslock
